import Mathlib

/-!
# katolomb: translation lookup and placeholder interpolation

A shallow embedding of the Go package `katolomb` (`yaml.go`, `translator.go`,
`interpolator.go`, `properties.go`) together with theorems about it.

Modelling conventions.

* A Go `string` is a list of characters (`Str`).  Every operation of the package
  compares, splits and concatenates strings and never inspects an encoding, so
  the alphabet is immaterial.
* A Go `error` is represented by its message (`GoError`); `nil` is `none`.
* A Go result pair `(string, error)` is `Result = Str × Option GoError`; both
  components are kept, since Go callers receive both.
* `Translator`, `Interpolator` and `TranslationProperties` are interfaces whose
  implementations may have side effects (the tests use closures that set
  flags).  They are modelled as state-passing functions over an arbitrary
  world state `σ`.
* `strconv.Quote` belongs to the Go standard library; the functions that call
  it take it as the parameter `Quote`.
* `strings.Split`, `strings.Replace` and `regexp.FindAllStringSubmatch` belong
  to the Go standard library as well; they are modelled by `Split`, `Replace`
  and `FindAllStringSubmatch`, and the first group of theorems checks these
  models against the behaviour that the library documents.
* `yaml.Unmarshal` belongs to the package `gopkg.in/yaml.v2`; the constructors
  of the YAML translator take it as the parameter `Unmarshal`, and the parsed
  document is a `RawValue`.
* The only `panic` of the package is in `yamlTranslations.find`; `find` and
  `yamlTranslator.Translate` therefore return an `Outcome`.  The
  implementations of the interfaces that are passed as arguments are functions
  that return.

The file has two parts: the definitions, then the theorems.
-/

namespace Katolomb

/-- A Go string. -/
abbrev Str := List Char

/-- A Go `error` value, identified with the message that `Error()` returns. -/
structure GoError where
  msg : Str
deriving DecidableEq, Repr

/-- The Go result pair `(string, error)`; `none` is the `nil` error. -/
abbrev Result := Str × Option GoError

/-- The call `fmt.Errorf(format)` for a format without verbs. -/
def Errorf (m : String) : GoError := ⟨m.toList⟩

/-- The call `fmt.Errorf("<what> %v: %v", quoted, err)`. -/
def Errorf2 (what : String) (quoted : Str) (err : GoError) : GoError :=
  ⟨what.toList ++ quoted ++ ": ".toList ++ err.msg⟩

/-! ## `strings` helpers -/

/-- Whether `p` is an initial segment of `s` (`strings.HasPrefix(s, p)`). -/
def startsWith : Str → Str → Bool
  | _, [] => true
  | [], _ :: _ => false
  | c :: s, d :: p => c == d && startsWith s p

/-- Worker of `Split` for a non-empty separator: `skip` counts the characters of
a separator occurrence that are still to be dropped, `cur` is the segment read
so far. -/
def splitGo (sep : Str) : Nat → Str → Str → List Str
  | _, cur, [] => [cur]
  | skip + 1, cur, _ :: s => splitGo sep skip cur s
  | 0, cur, c :: s =>
      if startsWith (c :: s) sep then cur :: splitGo sep (sep.length - 1) [] s
      else splitGo sep 0 (cur ++ [c]) s

/-- The call `strings.Split(s, sep)`: the segments of `s` between the successive
non-overlapping occurrences of `sep`; an empty `sep` explodes `s` into its
characters. -/
def Split (s sep : Str) : List Str :=
  if sep = [] then s.map (fun c => [c]) else splitGo sep 0 [] s

/-! ## yaml.go -/

/-- A value stored in a `yamlTranslations` map (`map[string]interface{}`): a
string, a nested `yamlTranslations`, or a value of any other dynamic type (of
which only the type name matters).  A Go map is represented by an association
list read with `List.lookup`. -/
inductive YamlValue where
  | str (s : Str)
  | translations (m : List (Str × YamlValue))
  | other (typeName : Str)

/-- The Go type `yamlTranslations`. -/
abbrev yamlTranslations := List (Str × YamlValue)

/-- The Go type `yamlTranslator`. -/
structure yamlTranslator where
  separator : Str
  translations : yamlTranslations

/-- What a call of a function that may panic does: it returns or it panics. -/
inductive Outcome (α : Type) where
  | ret (a : α)
  | panic (msg : Str)
deriving DecidableEq

/-- The method `yamlTranslations.find`. -/
def yamlTranslations.find : yamlTranslations → List Str → Outcome Result
  | _, [] => .ret ([], some (Errorf "incomplete path"))
  | yts, k :: path =>
    match yts.lookup k with
    | none => .ret ([], some (Errorf "not found"))
    | some (.translations v) => yamlTranslations.find v path
    | some (.str v) =>
      if path.length ≠ 0 then .ret ([], some (Errorf "not found"))
      else .ret (v, none)
    | some (.other ty) =>
      .panic ("unexpected value of type ".toList ++ ty ++ " in yamlTranslations".toList)

/-! ## The three interfaces -/

/-- The interface `TranslationProperties`: `Property(name)` run in world state
`s` returns a Go result pair and the new world state. -/
abbrev TranslationProperties (σ : Type) := Str → σ → Result × σ

/-- The interface `Translator`: `Translate(key, properties)`. -/
abbrev Translator (σ : Type) := Str → TranslationProperties σ → σ → Result × σ

/-- The interface `Interpolator`: `Interpolate(text, properties)`. -/
abbrev Interpolator (σ : Type) := Str → TranslationProperties σ → σ → Result × σ

/-- The method `yamlTranslator.Translate`.  The property source is part of the
signature and is not used; the world state is returned as received. -/
def yamlTranslator.Translate {σ : Type} (Quote : Str → Str) (t : yamlTranslator)
    (key : Str) (_properties : TranslationProperties σ) (s : σ) : Outcome (Result × σ) :=
  let path := if t.separator = [] then [key] else Split key t.separator
  match t.translations.find path with
  | .panic m => .panic m
  | .ret (translation, some err) =>
    .ret ((translation, some (Errorf2 "translating " (Quote key) err)), s)
  | .ret (translation, none) => .ret ((translation, none), s)

/-! ## translator.go -/

/-- The constructor `NewDefaultTranslator`. -/
def NewDefaultTranslator {σ : Type} (translation : Str) (translator : Translator σ) :
    Translator σ :=
  fun key props s =>
    match translator key props s with
    | ((_, some _), s1) => ((translation, none), s1)
    | ((t, none), s1) => ((t, none), s1)

/-- The constructor `NewKeyAsDefaultTranslator`. -/
def NewKeyAsDefaultTranslator {σ : Type} (translator : Translator σ) : Translator σ :=
  fun key props s =>
    match translator key props s with
    | ((_, some _), s1) => ((key, none), s1)
    | ((t, none), s1) => ((t, none), s1)

/-- The constructor `NewInterpolatedTranslator`. -/
def NewInterpolatedTranslator {σ : Type} (Quote : Str → Str) (translator : Translator σ)
    (interpolator : Interpolator σ) : Translator σ :=
  fun key props s =>
    match translator key props s with
    | ((_, some err), s1) => (([], some err), s1)
    | ((t, none), s1) =>
      match interpolator t props s1 with
      | ((_, some err), s2) => (([], some (Errorf2 "translating " (Quote key) err)), s2)
      | ((t, none), s2) => ((t, none), s2)

/-! ## properties.go -/

/-- The constructor `NewTranslationProperties`; the Go map is an association
list read with `List.lookup`. -/
def NewTranslationProperties {σ : Type} (ps : List (Str × Str)) : TranslationProperties σ :=
  fun p s =>
    match ps.lookup p with
    | none => (([], some (Errorf "property not available")), s)
    | some v => ((v, none), s)

/-- The constructor `NewTranslationPropertiesWithDefault`. -/
def NewTranslationPropertiesWithDefault {σ : Type} (ps : TranslationProperties σ)
    (defaultValue : Str) : TranslationProperties σ :=
  fun p s =>
    match ps p s with
    | ((_, some _), s1) => ((defaultValue, none), s1)
    | ((v, none), s1) => ((v, none), s1)

/-! ## interpolator.go -/

/-- Worker of `Replace` for a non-empty `old`: `skip` counts the characters of
an occurrence of `old` that are still to be dropped. -/
def replaceGo (old new : Str) : Nat → Str → Str
  | _, [] => []
  | skip + 1, _ :: s => replaceGo old new skip s
  | 0, c :: s =>
      if startsWith (c :: s) old then new ++ replaceGo old new (old.length - 1) s
      else c :: replaceGo old new 0 s

/-- The call `strings.Replace(s, old, new, -1)`: every one of the successive
non-overlapping occurrences of `old` in `s`, found left to right, is replaced
by `new`; an empty `old` matches before every character and at the end. -/
def Replace (s old new : Str) : Str :=
  if old = [] then new ++ s.flatMap (fun c => c :: new) else replaceGo old new 0 s

/-- One match of `defaultVanillaInterpolatorRegexp`: the text captured by the
group `name` and, when the optional group `default` took part in the match,
the text that follows its `|`. -/
structure Declaration where
  name : Str
  dflt : Option Str
deriving DecidableEq, Repr

/-- The text `|<default>` captured by the group `default`; empty when the group
did not take part in the match. -/
def Declaration.defaultGroup (d : Declaration) : Str :=
  match d.dflt with
  | none => []
  | some v => '|' :: v

/-- The whole text of a match: `%{<name>}` or `%{<name>|<default>}`. -/
def Declaration.text (d : Declaration) : Str :=
  '%' :: '{' :: (d.name ++ d.defaultGroup ++ ['}'])

/-- A match of `%\{(?P<name>[^\}\|]+)(?P<default>\|[^\}]*)?\}` anchored at the
start of `s`.  After `%{` the greedy class `[^\}\|]+` takes the longest run of
characters other than `}` and `|`, which must not be empty; if `|` follows, the
optional group takes it and the longest run of characters other than `}`; then
`}` must follow.  No shorter run can be followed by `|` or `}`, so backtracking
never yields another match. -/
def matchHere : Str → Option Declaration
  | '%' :: '{' :: rest =>
    let name := rest.takeWhile (fun c => c != '}' && c != '|')
    if name = [] then none
    else
      match rest.dropWhile (fun c => c != '}' && c != '|') with
      | '}' :: _ => some ⟨name, none⟩
      | '|' :: r =>
        match r.dropWhile (fun c => c != '}') with
        | '}' :: _ => some ⟨name, some (r.takeWhile (fun c => c != '}'))⟩
        | _ => none
      | _ => none
  | _ => none

/-- The successive non-overlapping matches of the pattern in a text, leftmost
first; `skip` counts the characters of the last match still to be passed. -/
def findAllGo : Nat → Str → List Declaration
  | _, [] => []
  | skip + 1, _ :: s => findAllGo skip s
  | 0, c :: s =>
      match matchHere (c :: s) with
      | some d => d :: findAllGo (d.text.length - 1) s
      | none => findAllGo 0 s

/-- The call `regexp.FindAllStringSubmatch(text, -1)` on
`defaultVanillaInterpolatorRegexp`: for every match the slice of the whole
match, the group `name` and the group `default`. -/
def FindAllStringSubmatch (text : Str) : List (List Str) :=
  (findAllGo 0 text).map (fun d => [d.text, d.name, d.defaultGroup])

/-- The Go struct `interpolation`. -/
structure interpolation where
  literal : Str
  property : Str
  hasDefaultValue : Bool
  defaultValue : Str
deriving DecidableEq, Repr

/-- The method `interpolator.findInterpolations`, for the regular expression
that `NewInterpolator` installs. -/
def interpolator.findInterpolations (text : Str) : List interpolation :=
  (FindAllStringSubmatch text).map (fun interpolationSlice =>
    let hasDefaultValue :=
      decide (interpolationSlice.length > 2) && decide ((interpolationSlice.getD 2 []).length > 0)
    let defaultValue := if hasDefaultValue then (interpolationSlice.getD 2 []).drop 1 else []
    { literal := interpolationSlice.getD 0 []
      property := interpolationSlice.getD 1 []
      hasDefaultValue := hasDefaultValue
      defaultValue := defaultValue })

/-- The loop of `interpolator.Interpolate` over the interpolations that remain,
with the current value of the variable `text`. -/
def interpolateLoop {σ : Type} (Quote : Str → Str) (properties : TranslationProperties σ) :
    List interpolation → Str → σ → Result × σ
  | [], text, s => ((text, none), s)
  | interpol :: rest, text, s =>
    match properties interpol.property s with
    | ((value, none), s1) =>
      interpolateLoop Quote properties rest (Replace text interpol.literal value) s1
    | ((_, some err), s1) =>
      if !interpol.hasDefaultValue then
        (([], some (Errorf2 "interpolating " (Quote text) err)), s1)
      else
        interpolateLoop Quote properties rest
          (Replace text interpol.literal interpol.defaultValue) s1

/-- The method `interpolator.Interpolate` of the interpolator that
`NewInterpolator` returns. -/
def interpolator.Interpolate {σ : Type} (Quote : Str → Str) : Interpolator σ :=
  fun text properties s =>
    interpolateLoop Quote properties (interpolator.findInterpolations text) text s

/-- The constructor `NewInterpolator`. -/
def NewInterpolator {σ : Type} (Quote : Str → Str) : Interpolator σ :=
  interpolator.Interpolate Quote

/-- The constructor `NewNoErrorInterpolator`. -/
def NewNoErrorInterpolator {σ : Type} (i : Interpolator σ) : Interpolator σ :=
  fun text props s =>
    match i text props s with
    | ((_, some _), s1) => ((text, none), s1)
    | ((interpText, none), s1) => ((interpText, none), s1)

/-! ## Normalized trees and the path walk of the specification -/

mutual
/-- A value of a normalized tree: a string, or a mapping whose values are
normalized. -/
def YamlValue.normalized : YamlValue → Bool
  | .str _ => true
  | .translations m => normalizedEntries m
  | .other _ => false
/-- A mapping all of whose values are normalized. -/
def normalizedEntries : List (Str × YamlValue) → Bool
  | [] => true
  | (_, v) :: rest => v.normalized && normalizedEntries rest
end

/-- The walk of the specification: `Reaches m path v` holds when every segment
of `path` is found as a key of the current mapping, starting from `m`, and the
leaf string `v` is reached exactly when the last segment is consumed. -/
inductive Reaches : yamlTranslations → List Str → Str → Prop
  | leaf {m : yamlTranslations} {k v : Str} :
      m.lookup k = some (.str v) → Reaches m [k] v
  | step {m m1 : yamlTranslations} {k : Str} {path : List Str} {v : Str} :
      m.lookup k = some (.translations m1) → Reaches m1 path v → Reaches m (k :: path) v

/-! ## Data for the worked examples -/

/-- The result of `strconv.Quote` on a string in which no character needs an
escape: the string between double quotes. -/
def quotePlain (s : Str) : Str := '"' :: (s ++ ['"'])

/-- The document `{hello: Hola, greetings: {bye: {night: Buenas noches}}}`. -/
def exampleTranslations : yamlTranslations :=
  [("hello".toList, .str "Hola".toList),
   ("greetings".toList,
      .translations [("bye".toList, .translations [("night".toList, .str "Buenas noches".toList)])])]

/-- The translator that `NewYAMLTranslator` builds over `exampleTranslations`. -/
def exampleTranslator : yamlTranslator := ⟨".".toList, exampleTranslations⟩

/-- A property source that records every name it is asked for in the world
state and finds nothing but the empty string, as the sources of the tests do. -/
def recordingProperties : TranslationProperties (List Str) :=
  fun p log => (([], none), log ++ [p])

/-- The failing translator of the tests: it queries the property `translator`
and returns the error `some error`. -/
def errTranslator : Translator (List Str) :=
  fun _ p s => (([], some (Errorf "some error")), (p "translator".toList s).2)

/-- The successful translator of the tests: it queries the property
`translator` and returns `translated <key>`. -/
def successfulTranslator : Translator (List Str) :=
  fun key p s => (("translated ".toList ++ key, none), (p "translator".toList s).2)

/-- The failing interpolator of the tests: it queries the property
`interpolator` and returns the error `some error`. -/
def errInterpolator : Interpolator (List Str) :=
  fun _ p s => (([], some (Errorf "some error")), (p "interpolator".toList s).2)

/-- The successful interpolator of the tests: it queries the property
`interpolator` and returns `interpolated <text>`. -/
def successfulInterpolator : Interpolator (List Str) :=
  fun k p s => (("interpolated ".toList ++ k, none), (p "interpolator".toList s).2)

/-! ## The declarations of a template, as the specification sees them -/

/-- The interpolation declarations of a template: the successive
non-overlapping matches of the placeholder grammar, left to right. -/
def declarations (text : Str) : List Declaration := findAllGo 0 text

/-- The properties of the tests of `interpolator.go`. -/
def profile : List (Str × Str) :=
  [("name".toList, "Alan Ginsberg".toList),
   ("hobby".toList, "writing poems".toList),
   ("favorite music".toList, "jazz".toList)]

/-- The value that a map-backed source resolves a declaration to: the value
stored under the declaration's name when there is one, otherwise the
declaration's default. -/
def resolvedValue (ps : List (Str × Str)) (d : Declaration) : Str :=
  match ps.lookup d.name with
  | some v => v
  | none => d.dflt.getD []

/-- The result that the specification describes for a successful
interpolation: the template with each matched declaration replaced by the
declaration's own resolved value and all text outside the matches left as it
is.  The scan is that of `findAllGo`; `skip` counts the characters of the last
match still to be passed. -/
def substituteDeclarations (resolve : Declaration → Str) : Nat → Str → Str
  | _, [] => []
  | skip + 1, _ :: s => substituteDeclarations resolve skip s
  | 0, c :: s =>
      match matchHere (c :: s) with
      | some d => resolve d ++ substituteDeclarations resolve (d.text.length - 1) s
      | none => c :: substituteDeclarations resolve 0 s

/-! ## Key paths and walks that do not end on a leaf -/

/-- The key path of the specification: the key split on the separator; with an
empty separator the whole key is the only segment. -/
def keyPath (key separator : Str) : List Str :=
  if separator = [] then [key] else Split key separator

/-- Every segment of `path` is found as a key of the current mapping, starting
from `m`, and the last segment names a mapping (a branch), not a leaf. -/
inductive EndsOnBranch : yamlTranslations → List Str → Prop
  | last {m m1 : yamlTranslations} {k : Str} :
      m.lookup k = some (.translations m1) → EndsOnBranch m [k]
  | step {m m1 : yamlTranslations} {k : Str} {path : List Str} :
      m.lookup k = some (.translations m1) → EndsOnBranch m1 path →
      EndsOnBranch m (k :: path)

/-- Two answers of property sources that are the same answer: the same value,
or not found on both sides. -/
def SameAnswer (r1 r2 : Result) : Prop :=
  (r1.2 = none ∧ r2.2 = none ∧ r1.1 = r2.1) ∨ (r1.2 ≠ none ∧ r2.2 ≠ none)

/-- The properties of the tests and one more, which no template refers to. -/
def profileWithAge : List (Str × Str) := ("age".toList, "70".toList) :: profile

/-! ## The parsed document and its normalization (yaml.go) -/

/-- The decimal rendering of a natural number, without leading zeros: what
`fmt.Sprintf("%v", k)` prints for a non-negative `int`. -/
def decimal (n : Nat) : Str := Nat.toDigits 10 n

/-- A scalar of a parsed document, as `yaml.Unmarshal` stores it in an
`interface{}`: a string, an integer, or a value of any other scalar type (a
boolean, a float, `nil`, ...), of which only the text that the verb `%v`
prints matters. -/
inductive Scalar where
  | str (s : Str)
  | int (i : Int)
  | other (rendered : Str)
deriving DecidableEq

/-- The call `fmt.Sprintf("%v", v)` on a scalar. -/
def Scalar.format : Scalar → Str
  | .str s => s
  | .int (Int.ofNat n) => decimal n
  | .int (Int.negSucc n) => '-' :: decimal (n + 1)
  | .other rendered => rendered

/-- A value of a parsed document: a scalar, a sequence (`[]interface{}`) or a
mapping (`map[interface{}]interface{}`).  The entries of a mapping are listed
in the order in which a `range` loop visits them, which Go leaves open. -/
inductive RawValue where
  | scalar (v : Scalar)
  | slice (l : List RawValue)
  | map (m : List (Scalar × RawValue))

mutual
/-- The function `yamlTranslationizeValue`. -/
def yamlTranslationizeValue : RawValue → YamlValue
  | .map m => .translations (yamlTranslationizeMapFrom [] m)
  | .slice l => .translations (yamlTranslationizeSliceFrom [] 0 l)
  | .scalar v => .str v.format
/-- The loop of `yamlTranslationizeMap` over the entries that remain; `yts` is
the map built so far, and the assignment `yts[key] = value` puts the entry in
front, where `List.lookup` finds it first. -/
def yamlTranslationizeMapFrom (yts : yamlTranslations) :
    List (Scalar × RawValue) → yamlTranslations
  | [] => yts
  | (k, v) :: rest =>
    yamlTranslationizeMapFrom ((k.format, yamlTranslationizeValue v) :: yts) rest
/-- The loop of `yamlTranslationizeSlice` over the elements that remain; `k`
is the index of the next element. -/
def yamlTranslationizeSliceFrom (yts : yamlTranslations) (k : Nat) :
    List RawValue → yamlTranslations
  | [] => yts
  | v :: rest =>
    yamlTranslationizeSliceFrom ((decimal k, yamlTranslationizeValue v) :: yts) (k + 1) rest
end

/-- The function `yamlTranslationizeMap`. -/
def yamlTranslationizeMap (ts : List (Scalar × RawValue)) : yamlTranslations :=
  yamlTranslationizeMapFrom [] ts

/-- The function `yamlTranslationizeSlice`. -/
def yamlTranslationizeSlice (ts : List RawValue) : yamlTranslations :=
  yamlTranslationizeSliceFrom [] 0 ts

/-- The constructor `NewYAMLTranslatorWithSeparator`.  `Unmarshal` stands for
`yaml.Unmarshal` into an empty `map[interface{}]interface{}`: it gives the
parsed mapping or an error. -/
def NewYAMLTranslatorWithSeparator (Unmarshal : Str → Except GoError (List (Scalar × RawValue)))
    (yml : Str) (separator : Str) : Except GoError yamlTranslator :=
  match Unmarshal yml with
  | .error err => .error ⟨"unmarshalling yaml translations: ".toList ++ err.msg⟩
  | .ok ts => .ok { separator := separator, translations := yamlTranslationizeMap ts }

/-- The constructor `NewYAMLTranslator`. -/
def NewYAMLTranslator (Unmarshal : Str → Except GoError (List (Scalar × RawValue)))
    (yml : Str) : Except GoError yamlTranslator :=
  NewYAMLTranslatorWithSeparator Unmarshal yml ".".toList

/-- The strings of a sequence of scalar strings, as values of a parsed
document. -/
def stringSequence (xs : List Str) : RawValue :=
  .slice (xs.map (fun x => .scalar (.str x)))

/-- The parsed document of the tests with arrays:
`{greetings: {hello: Hello!}, numbers: [zero, one, two, three]}`. -/
def exampleDocument : List (Scalar × RawValue) :=
  [(.str "greetings".toList, .map [(.str "hello".toList, .scalar (.str "Hello!".toList))]),
   (.str "numbers".toList,
      stringSequence ["zero".toList, "one".toList, "two".toList, "three".toList])]

/-- A parser that answers `exampleDocument` for every input. -/
def exampleUnmarshal : Str → Except GoError (List (Scalar × RawValue)) :=
  fun _ => .ok exampleDocument

/-- A parsed document with two top-level keys that print alike: the string
`1`, which holds the sequence `[a, b]`, and the integer `1`, which holds the
scalar `x`.  The entries are listed in the order in which the `range` loop of
`yamlTranslationizeMap` visits them, the string key first. -/
def collidingDocument : List (Scalar × RawValue) :=
  [(.str "1".toList, stringSequence ["a".toList, "b".toList]),
   (.int 1, .scalar (.str "x".toList))]

/-- A parser that answers `collidingDocument` for every input. -/
def collidingUnmarshal : Str → Except GoError (List (Scalar × RawValue)) :=
  fun _ => .ok collidingDocument

/-- The number that a decimal digit stands for. -/
def digitValue (c : Char) : Nat := c.toNat - 48

/-- The number that a string of decimal digits stands for. -/
def decimalValue (s : Str) : Nat := s.foldl (fun a c => a * 10 + digitValue c) 0

/-! ## Templates whose openers are closed at once -/

/-- Whether every `%{` of a text is followed by `}` at once: a check that can
be evaluated, for the worked examples. -/
def openersClosed : Str → Bool
  | [] => true
  | c :: s =>
    (!(startsWith (c :: s) ['%', '{']) || startsWith s ['{', '}']) && openersClosed s

/-- A base translator that fails on every key, with the error `some error`,
and asks the property source nothing. -/
def failingTranslator : Translator Unit :=
  fun _ _ s => (([], some (Errorf "some error")), s)

/-! ## The reasons for which a walk fails -/

/-- Some segment of `path` is not a key of the mapping reached so far, every
segment before it naming a mapping. -/
inductive MissingSegment : yamlTranslations → List Str → Prop
  | here {m : yamlTranslations} {k : Str} {path : List Str} :
      m.lookup k = none → MissingSegment m (k :: path)
  | step {m m1 : yamlTranslations} {k : Str} {path : List Str} :
      m.lookup k = some (.translations m1) → MissingSegment m1 path →
      MissingSegment m (k :: path)

/-- The path continues past a leaf: a proper initial part of it already
reaches a leaf string. -/
def ContinuesPastLeaf (m : yamlTranslations) (path : List Str) : Prop :=
  ∃ p1 p2 v, path = p1 ++ p2 ∧ p2 ≠ [] ∧ Reaches m p1 v

/-! ## The placeholder grammar, stated without the scanner -/

/-- A declaration that the grammar admits: the name is not empty and holds
neither `}` nor `|`, and the default, when there is one, holds no `}`. -/
def Declaration.wellFormed (d : Declaration) : Prop :=
  d.name ≠ [] ∧ (∀ c ∈ d.name, c ≠ '}' ∧ c ≠ '|') ∧
    (∀ v, d.dflt = some v → ∀ c ∈ v, c ≠ '}')

/-- The grammar matches at the head of `s` with the captures of `d`: `s`
starts with `%{<name>}` or `%{<name>|<default>}`. -/
def MatchesAt (s : Str) (d : Declaration) : Prop :=
  d.wellFormed ∧ ∃ rest, s = d.text ++ rest

/-- The successive non-overlapping matches of the grammar in a text, listed
left to right: either the grammar matches at no position and the list is
empty, or the text is `g ++ literal ++ rest` where the grammar matches at
`literal` and at no position of `g`, the first declaration is that match and
the others are the matches of `rest`. -/
inductive Scanned : Str → List Declaration → Prop
  | done {text : Str} :
      (∀ pre rest d, text = pre ++ rest → ¬ MatchesAt rest d) → Scanned text []
  | next {g rest : Str} {d : Declaration} {ds : List Declaration} :
      MatchesAt (d.text ++ rest) d →
      (∀ pre suf d1, g = pre ++ suf → suf ≠ [] → ¬ MatchesAt (suf ++ d.text ++ rest) d1) →
      Scanned rest ds → Scanned (g ++ d.text ++ rest) (d :: ds)

/-- The record that `findInterpolations` keeps of a declaration. -/
def Declaration.record (d : Declaration) : interpolation :=
  { literal := d.text, property := d.name,
    hasDefaultValue := d.dflt.isSome, defaultValue := d.dflt.getD [] }

/-! ## Theorems: the models of the library functions -/

theorem startsWith_iff (s p : Str) : startsWith s p = true ↔ ∃ r, s = p ++ r := by
  induction p generalizing s with
  | nil => cases s <;> simp [startsWith]
  | cons d p ih =>
    cases s with
    | nil => simp [startsWith]
    | cons c s =>
      simp only [startsWith, Bool.and_eq_true, beq_iff_eq, ih, List.cons_append, List.cons.injEq]
      constructor
      · rintro ⟨rfl, r, rfl⟩; exact ⟨r, rfl, rfl⟩
      · rintro ⟨r, rfl, rfl⟩; exact ⟨rfl, r, rfl⟩

theorem takeWhile_dropWhile_of_split (p : Char → Bool) (a : Str) (x : Char) (r : Str)
    (ha : ∀ c ∈ a, p c = true) (hx : p x = false) :
    (a ++ x :: r).takeWhile p = a ∧ (a ++ x :: r).dropWhile p = x :: r := by
  induction a with
  | nil => simp [List.takeWhile, List.dropWhile, hx]
  | cons c a ih =>
    have hc := ha c (List.mem_cons_self _ _)
    have := ih (fun c hc => ha c (List.mem_cons_of_mem _ hc))
    simp [List.takeWhile, List.dropWhile, hc, this]

theorem matchHere_eq_some_iff (s : Str) (d : Declaration) :
    matchHere s = some d ↔
      d.name ≠ [] ∧ (∀ c ∈ d.name, c ≠ '}' ∧ c ≠ '|') ∧
      (∀ v, d.dflt = some v → ∀ c ∈ v, c ≠ '}') ∧ ∃ rest, s = d.text ++ rest := by
  constructor
  · intro h
    unfold matchHere at h
    split at h
    · rename_i rest
      simp only at h
      have hname : ∀ c ∈ rest.takeWhile (fun c => c != '}' && c != '|'), c ≠ '}' ∧ c ≠ '|' := by
        intro c hc
        simpa using List.mem_takeWhile_imp hc
      have hsplit := List.takeWhile_append_dropWhile (fun c => c != '}' && c != '|') rest
      split at h
      · cases h
      · rename_i hne
        split at h
        · rename_i r hr
          cases h
          refine ⟨hne, hname, by simp, r, ?_⟩
          rw [hr] at hsplit
          simp only [Declaration.text, Declaration.defaultGroup, List.append_nil,
            List.cons_append, List.append_assoc, List.nil_append, List.cons.injEq, true_and]
          exact hsplit.symm
        · rename_i r hr
          have hsplit2 := List.takeWhile_append_dropWhile (fun c => c != '}') r
          split at h
          · rename_i r2 hr2
            cases h
            refine ⟨hne, hname, ?_, r2, ?_⟩
            · intro v hv c hc
              cases hv
              simpa using List.mem_takeWhile_imp hc
            · rw [hr2] at hsplit2
              rw [hr] at hsplit
              simp only [Declaration.text, Declaration.defaultGroup, List.cons_append,
                List.append_assoc, List.nil_append, List.cons.injEq, true_and, hsplit2]
              exact hsplit.symm
          · cases h
        · cases h
    · cases h
  · rintro ⟨hne, hname, hdflt, rest, rfl⟩
    obtain ⟨name, dflt⟩ := d
    simp only at hne hname hdflt
    have hP : ∀ c ∈ name, (c != '}' && c != '|') = true := by
      intro c hc
      have := hname c hc
      simp [this.1, this.2]
    cases dflt with
    | none =>
      have h1 := takeWhile_dropWhile_of_split (fun c => c != '}' && c != '|') name '}' rest hP
        (by decide)
      simp only [Declaration.text, Declaration.defaultGroup, List.append_nil, List.cons_append,
        List.append_assoc, List.nil_append, List.singleton_append, matchHere, h1.1, h1.2]
      simp [hne]
    | some v =>
      have h1 := takeWhile_dropWhile_of_split (fun c => c != '}' && c != '|') name '|'
        (v ++ '}' :: rest) hP (by decide)
      have hQ : ∀ c ∈ v, (c != '}') = true := by
        intro c hc
        have := hdflt v rfl c hc
        simp [this]
      have h2 := takeWhile_dropWhile_of_split (fun c => c != '}') v '}' rest hQ (by decide)
      simp only [Declaration.text, Declaration.defaultGroup, List.cons_append,
        List.append_assoc, List.nil_append, List.singleton_append, matchHere, h1.1, h1.2,
        h2.1, h2.2]
      simp [hne]

theorem splitGo_skip (sep cur : Str) (p s : Str) :
    splitGo sep p.length cur (p ++ s) = splitGo sep 0 cur s := by
  induction p with
  | nil => rfl
  | cons c p ih => simpa [splitGo] using ih

theorem splitGo_zero_cons (sep cur : Str) (c : Char) (s : Str) :
    splitGo sep 0 cur (c :: s) =
      if startsWith (c :: s) sep then cur :: splitGo sep (sep.length - 1) [] s
      else splitGo sep 0 (cur ++ [c]) s := by
  simp [splitGo]

theorem replaceGo_zero_cons (old new : Str) (c : Char) (s : Str) :
    replaceGo old new 0 (c :: s) =
      if startsWith (c :: s) old then new ++ replaceGo old new (old.length - 1) s
      else c :: replaceGo old new 0 s := by
  simp [replaceGo]

theorem splitGo_ne_nil (sep : Str) (s : Str) : ∀ (skip : Nat) (cur : Str),
    splitGo sep skip cur s ≠ [] := by
  induction s with
  | nil => intro skip cur; simp [splitGo]
  | cons c s ih =>
    intro skip cur
    cases skip with
    | succ k => simpa [splitGo] using ih k cur
    | zero =>
      simp only [splitGo]
      split
      · simp
      · exact ih 0 _

/-- At an occurrence of the separator the current segment ends and the scan
resumes after the occurrence. -/
theorem splitGo_match (sep cur s : Str) (hsep : sep ≠ []) :
    splitGo sep 0 cur (sep ++ s) = cur :: splitGo sep 0 [] s := by
  obtain ⟨c, p, rfl⟩ := List.exists_cons_of_ne_nil hsep
  have h : startsWith (c :: (p ++ s)) (c :: p) = true :=
    (startsWith_iff _ _).2 ⟨s, rfl⟩
  rw [List.cons_append, splitGo_zero_cons, if_pos h]
  simp only [List.length_cons, Nat.add_sub_cancel]
  rw [splitGo_skip]

/-- Where the separator does not occur the character joins the current
segment. -/
theorem splitGo_no_match (sep cur : Str) (c : Char) (s : Str)
    (h : ¬ ∃ r, c :: s = sep ++ r) :
    splitGo sep 0 cur (c :: s) = splitGo sep 0 (cur ++ [c]) s := by
  have h1 : startsWith (c :: s) sep = false := by
    rw [← Bool.not_eq_true, startsWith_iff]; exact h
  simp [splitGo, h1]

/-- Joining the segments of `Split s sep` with `sep` gives `s` back. -/
theorem Split_intercalate (s sep : Str) (hsep : sep ≠ []) :
    sep.intercalate (Split s sep) = s := by
  have key : ∀ (n : Nat) (s cur : Str), s.length ≤ n →
      sep.intercalate (splitGo sep 0 cur s) = cur ++ s := by
    intro n
    induction n with
    | zero =>
      intro s cur hs
      have : s = [] := List.length_eq_zero.1 (Nat.le_zero.1 hs)
      subst this
      simp [splitGo, List.intercalate]
    | succ n ih =>
      intro s cur hs
      cases s with
      | nil => simp [splitGo, List.intercalate]
      | cons c s =>
        by_cases hm : ∃ r, c :: s = sep ++ r
        · obtain ⟨r, hr⟩ := hm
          rw [hr, splitGo_match sep cur r hsep]
          have hlen : r.length ≤ n := by
            have := congrArg List.length hr
            have hpos : 0 < sep.length := List.length_pos.2 hsep
            simp only [List.length_cons, List.length_append] at this hs
            omega
          have ih1 := ih r [] hlen
          obtain ⟨x, xs, hx⟩ := List.exists_cons_of_ne_nil (splitGo_ne_nil sep r 0 [])
          rw [hx] at ih1 ⊢
          simp only [List.intercalate, List.intersperse, List.flatten_cons, List.nil_append]
            at ih1 ⊢
          rw [ih1]
        · rw [splitGo_no_match sep cur c s hm]
          have hlen : s.length ≤ n := by simpa using hs
          rw [ih s _ hlen]
          simp
  simp only [Split, hsep, if_false]
  simpa using key s.length s [] (Nat.le_refl _)

theorem replaceGo_skip (old new : Str) (p s : Str) :
    replaceGo old new p.length (p ++ s) = replaceGo old new 0 s := by
  induction p with
  | nil => rfl
  | cons c p ih => simpa [replaceGo] using ih

/-- An occurrence of `old` at the head of the text is replaced by `new` and the
replacement resumes after the occurrence. -/
theorem Replace_match (s old new : Str) (hold : old ≠ []) :
    Replace (old ++ s) old new = new ++ Replace s old new := by
  obtain ⟨c, p, rfl⟩ := List.exists_cons_of_ne_nil hold
  have h : startsWith (c :: (p ++ s)) (c :: p) = true :=
    (startsWith_iff _ _).2 ⟨s, rfl⟩
  simp only [Replace, reduceCtorEq, if_false]
  rw [List.cons_append, replaceGo_zero_cons, if_pos h]
  simp only [List.length_cons, Nat.add_sub_cancel]
  rw [replaceGo_skip]

/-- A character at which `old` does not occur is kept. -/
theorem Replace_no_match (c : Char) (s old new : Str) (hold : old ≠ [])
    (h : ¬ ∃ r, c :: s = old ++ r) :
    Replace (c :: s) old new = c :: Replace s old new := by
  have h1 : startsWith (c :: s) old = false := by
    rw [← Bool.not_eq_true, startsWith_iff]; exact h
  simp [Replace, hold, replaceGo, h1]

theorem Replace_nil (old new : Str) (hold : old ≠ []) : Replace [] old new = [] := by
  simp [Replace, hold, replaceGo]

theorem findAllGo_skip (p s : Str) : findAllGo p.length (p ++ s) = findAllGo 0 s := by
  induction p with
  | nil => rfl
  | cons c p ih => simpa [findAllGo] using ih

/-- A match at the head of the text is the first declaration, and the scan
resumes after the match. -/
theorem declarations_match (s : Str) (d : Declaration) (h : matchHere s = some d) :
    ∃ rest, s = d.text ++ rest ∧ declarations s = d :: declarations rest := by
  obtain ⟨_, _, _, rest, hs⟩ := (matchHere_eq_some_iff s d).1 h
  refine ⟨rest, hs, ?_⟩
  subst hs
  have ht : d.text = '%' :: ('{' :: (d.name ++ d.defaultGroup ++ ['}'])) := rfl
  rw [ht] at h ⊢
  simp only [declarations, List.cons_append] at h ⊢
  simp only [findAllGo, h, List.length_cons, Nat.add_sub_cancel]
  rw [findAllGo_skip]

/-- A position where the pattern does not match starts no declaration. -/
theorem declarations_no_match (c : Char) (s : Str) (h : matchHere (c :: s) = none) :
    declarations (c :: s) = declarations s := by
  simp [declarations, findAllGo, h]

/-! ## Theorems: the YAML translator -/

theorem normalized_lookup {m : yamlTranslations} (hm : normalizedEntries m = true)
    {k : Str} {v : YamlValue} (h : m.lookup k = some v) : v.normalized = true := by
  induction m with
  | nil => simp [List.lookup] at h
  | cons e rest ih =>
    obtain ⟨k1, v1⟩ := e
    simp only [normalizedEntries, Bool.and_eq_true] at hm
    simp only [List.lookup] at h
    split at h
    · cases h; exact hm.1
    · exact ih hm.2 h

theorem Reaches.functional {m : yamlTranslations} {path : List Str} {v w : Str}
    (h1 : Reaches m path v) (h2 : Reaches m path w) : v = w := by
  induction h1 with
  | leaf h =>
    cases h2 with
    | leaf h3 => rw [h] at h3; cases h3; rfl
    | step h3 h4 => rw [h] at h3; cases h3
  | step h hr ih =>
    cases h2 with
    | leaf h3 => rw [h] at h3; cases h3
    | step h3 h4 => rw [h] at h3; cases h3; exact ih h4

/-- On a normalized mapping `find` returns; it returns no error exactly when
the walk reaches a leaf, and then it returns that leaf. -/
theorem find_normalized (path : List Str) :
    ∀ m : yamlTranslations, normalizedEntries m = true →
      ∃ r : Result, yamlTranslations.find m path = .ret r ∧
        (r.2 = none ↔ ∃ v, Reaches m path v) ∧ (∀ v, Reaches m path v → r = (v, none)) := by
  induction path with
  | nil =>
    intro m _
    refine ⟨([], some (Errorf "incomplete path")), by simp [yamlTranslations.find], ?_, ?_⟩
    · simp only [reduceCtorEq, false_iff, not_exists]
      intro v h; cases h
    · intro v h; cases h
  | cons k path ih =>
    intro m hm
    cases hk : m.lookup k with
    | none =>
      refine ⟨([], some (Errorf "not found")), by simp [yamlTranslations.find, hk], ?_, ?_⟩
      · simp only [reduceCtorEq, false_iff, not_exists]
        intro v h
        cases h with
        | leaf h3 => rw [hk] at h3; cases h3
        | step h3 _ => rw [hk] at h3; cases h3
      · intro v h
        cases h with
        | leaf h3 => rw [hk] at h3; cases h3
        | step h3 _ => rw [hk] at h3; cases h3
    | some val =>
      cases val with
      | other ty =>
        have := normalized_lookup hm hk
        simp [YamlValue.normalized] at this
      | translations m1 =>
        have hm1 : normalizedEntries m1 = true := by
          have := normalized_lookup hm hk
          simpa [YamlValue.normalized] using this
        obtain ⟨r, hr, hiff, hval⟩ := ih m1 hm1
        refine ⟨r, by simp [yamlTranslations.find, hk, hr], ?_, ?_⟩
        · rw [hiff]
          constructor
          · rintro ⟨v, hv⟩; exact ⟨v, .step hk hv⟩
          · rintro ⟨v, hv⟩
            cases hv with
            | leaf h3 => rw [hk] at h3; cases h3
            | step h3 h4 => rw [hk] at h3; cases h3; exact ⟨v, h4⟩
        · intro v hv
          cases hv with
          | leaf h3 => rw [hk] at h3; cases h3
          | step h3 h4 => rw [hk] at h3; cases h3; exact hval v h4
      | str v =>
        cases path with
        | nil =>
          refine ⟨(v, none), by simp [yamlTranslations.find, hk], ?_, ?_⟩
          · simp only [true_iff]; exact ⟨v, .leaf hk⟩
          · intro w hw
            rw [Reaches.functional hw (.leaf hk)]
        | cons k2 path2 =>
          refine ⟨([], some (Errorf "not found")), by simp [yamlTranslations.find, hk], ?_, ?_⟩
          · simp only [reduceCtorEq, false_iff, not_exists]
            intro w hw
            cases hw with
            | step h3 _ => rw [hk] at h3; cases h3
          · intro w hw
            cases hw with
            | step h3 _ => rw [hk] at h3; cases h3

/-- Claim C1.  For a translator over a normalized tree with a non-empty
separator, `Translate` returns (it does not panic) and leaves the world state
as it was; it returns no error if and only if the walk along the segments of
`Split key separator` finds every segment in the current mapping and reaches a
leaf string exactly when the last segment is consumed, and the string returned
is then that leaf. -/
theorem yamlTranslator_Translate_iff_walk {σ : Type} (Quote : Str → Str) (t : yamlTranslator)
    (hnorm : normalizedEntries t.translations = true) (hsep : t.separator ≠ [])
    (key : Str) (props : TranslationProperties σ) (s : σ) :
    ∃ r : Result, t.Translate Quote key props s = .ret (r, s) ∧
      (r.2 = none ↔ ∃ v, Reaches t.translations (Split key t.separator) v) ∧
      (∀ v, Reaches t.translations (Split key t.separator) v → r = (v, none)) := by
  obtain ⟨r, hr, hiff, hval⟩ := find_normalized (Split key t.separator) t.translations hnorm
  obtain ⟨tr, err⟩ := r
  cases err with
  | none =>
    refine ⟨(tr, none), ?_, hiff, hval⟩
    simp [yamlTranslator.Translate, hsep, hr]
  | some e =>
    refine ⟨(tr, some (Errorf2 "translating " (Quote key) e)), ?_, ?_, ?_⟩
    · simp [yamlTranslator.Translate, hsep, hr]
    · have h1 : ¬ ∃ v, Reaches t.translations (Split key t.separator) v := by
        rw [← hiff]; simp
      simp [h1]
    · intro v hv
      have := hval v hv
      simp at this

theorem yamlTranslator_Translate_iff_walk_witness :
    normalizedEntries exampleTranslator.translations = true ∧
    exampleTranslator.separator ≠ [] ∧
    ∃ r : Result,
      exampleTranslator.Translate quotePlain "greetings.bye.night".toList
        recordingProperties [] = .ret (r, []) ∧
      (r.2 = none ↔ ∃ v, Reaches exampleTranslator.translations
        (Split "greetings.bye.night".toList exampleTranslator.separator) v) ∧
      (∀ v, Reaches exampleTranslator.translations
        (Split "greetings.bye.night".toList exampleTranslator.separator) v → r = (v, none)) :=
  ⟨by decide, by decide,
    yamlTranslator_Translate_iff_walk quotePlain exampleTranslator (by decide) (by decide)
      "greetings.bye.night".toList recordingProperties []⟩

/-! ## Theorems: the interpolator -/

/-- How `findInterpolations` decodes the submatches of one declaration. -/
theorem findInterpolations_eq_map (text : Str) :
    interpolator.findInterpolations text =
      (declarations text).map (fun d =>
        { literal := d.text, property := d.name,
          hasDefaultValue := d.dflt.isSome, defaultValue := d.dflt.getD [] }) := by
  simp only [interpolator.findInterpolations, FindAllStringSubmatch, declarations, List.map_map]
  apply List.map_congr_left
  intro d _
  rcases d with ⟨name, _ | v⟩ <;> simp [Declaration.defaultGroup]

/-- The loop fails exactly when one of the interpolations it is given has a
name that the source does not find and no default value. -/
theorem interpolateLoop_error_iff {σ : Type} (Quote : Str → Str)
    (props : TranslationProperties σ) (absent : Str → Prop)
    (habs : ∀ n s, (props n s).1.2 ≠ none ↔ absent n) (l : List interpolation) :
    ∀ (text : Str) (s : σ),
      (interpolateLoop Quote props l text s).1.2 ≠ none ↔
        ∃ i ∈ l, absent i.property ∧ i.hasDefaultValue = false := by
  induction l with
  | nil => intro text s; simp [interpolateLoop]
  | cons i rest ih =>
    intro text s
    have hq := habs i.property s
    rcases hp : props i.property s with ⟨⟨value, _ | err⟩, s1⟩
    · have hna : ¬ absent i.property := by rw [← hq, hp]; simp
      simp only [interpolateLoop, hp]
      rw [ih]
      simp [hna]
    · have ha : absent i.property := by rw [← hq, hp]; simp
      cases hd : i.hasDefaultValue
      · simp [interpolateLoop, hp, hd, ha]
      · simp only [interpolateLoop, hp, hd, Bool.not_true, Bool.false_eq_true, if_false]
        rw [ih]
        simp [hd]

/-- Claim C2.  For a property source whose verdict on a name does not depend on
the world state (`absent n` tells whether `n` is absent from it),
`Interpolate` returns an error if and only if the template holds a declaration
whose name is absent from the source and which has no default part. -/
theorem Interpolate_error_iff {σ : Type} (Quote : Str → Str) (text : Str)
    (props : TranslationProperties σ) (absent : Str → Prop)
    (habs : ∀ n s, (props n s).1.2 ≠ none ↔ absent n) (s : σ) :
    (interpolator.Interpolate Quote text props s).1.2 ≠ none ↔
      ∃ d ∈ declarations text, absent d.name ∧ d.dflt = none := by
  unfold interpolator.Interpolate
  rw [interpolateLoop_error_iff Quote props absent habs, findInterpolations_eq_map]
  constructor
  · rintro ⟨i, hi, ha, hd⟩
    obtain ⟨d, hd1, rfl⟩ := List.mem_map.1 hi
    exact ⟨d, hd1, ha, by simpa using hd⟩
  · rintro ⟨d, hd1, ha, hd⟩
    exact ⟨_, List.mem_map.2 ⟨d, hd1, rfl⟩, ha, by simp [hd]⟩

/-- Membership in the map behind `NewTranslationProperties` decides, in every
world state, whether the source reports an error. -/
theorem NewTranslationProperties_error_iff {σ : Type} (ps : List (Str × Str)) (n : Str)
    (s : σ) : (NewTranslationProperties ps n s).1.2 ≠ none ↔ ps.lookup n = none := by
  unfold NewTranslationProperties
  cases ps.lookup n <;> simp

theorem Interpolate_error_iff_witness :
    (∀ (n : Str) (s : Unit),
      (NewTranslationProperties profile n s).1.2 ≠ none ↔ profile.lookup n = none) ∧
    ((interpolator.Interpolate quotePlain "my name is %\x7blastname\x7d, %\x7bname\x7d".toList
        (NewTranslationProperties profile) ()).1.2 ≠ none ↔
      ∃ d ∈ declarations "my name is %\x7blastname\x7d, %\x7bname\x7d".toList,
        profile.lookup d.name = none ∧ d.dflt = none) :=
  ⟨fun n s => NewTranslationProperties_error_iff profile n s,
    Interpolate_error_iff quotePlain "my name is %\x7blastname\x7d, %\x7bname\x7d".toList
      (NewTranslationProperties profile) (fun n => profile.lookup n = none)
      (fun n s => NewTranslationProperties_error_iff profile n s) ()⟩

/-- Claim C3, evaluated on two inputs on which the code departs from it.  In
`%{a} %{b}` with `a = %{b}` and `b = X` the value substituted for the first
declaration is replaced again by the second: the code returns `X X` where the
claim has `%{b} X`.  In `%{b} %{a|%{b}` with `b = v` and `a` absent the
substitution of the first declaration destroys the literal of the second,
which is then never replaced: the code returns `v %{a|v` where the claim has
`v %{b`. -/
theorem Interpolate_declarations_interfere :
    (interpolator.Interpolate quotePlain "%\x7ba\x7d %\x7bb\x7d".toList
        (NewTranslationProperties
          [("a".toList, "%\x7bb\x7d".toList), ("b".toList, "X".toList)]) ()).1 =
      ("X X".toList, none) ∧
    substituteDeclarations
        (resolvedValue [("a".toList, "%\x7bb\x7d".toList), ("b".toList, "X".toList)]) 0
        "%\x7ba\x7d %\x7bb\x7d".toList = "%\x7bb\x7d X".toList ∧
    (interpolator.Interpolate quotePlain "%\x7bb\x7d %\x7ba|%\x7bb\x7d".toList
        (NewTranslationProperties [("b".toList, "v".toList)]) ()).1 =
      ("v %\x7ba|v".toList, none) ∧
    substituteDeclarations (resolvedValue [("b".toList, "v".toList)]) 0
        "%\x7bb\x7d %\x7ba|%\x7bb\x7d".toList = "v %\x7bb".toList := by
  decide

/-- Claim C4, evaluated on an input on which the code departs from it.  In
`%{a|%{b}} %{b}` the declarations are `%{a|%{b}` (name `a`, default `%{b`)
and `%{b}`.  With `a` absent and `b = X` the default `%{b`, once substituted,
forms with the `}` that follows it the literal of the second declaration and
is replaced by `X`: the code returns `X X` where the claim has `%{b} X`. -/
theorem Interpolate_default_reinterpolated :
    declarations "%\x7ba|%\x7bb\x7d\x7d %\x7bb\x7d".toList =
      [⟨"a".toList, some "%\x7bb".toList⟩, ⟨"b".toList, none⟩] ∧
    (interpolator.Interpolate quotePlain "%\x7ba|%\x7bb\x7d\x7d %\x7bb\x7d".toList
        (NewTranslationProperties [("b".toList, "X".toList)]) ()).1 =
      ("X X".toList, none) ∧
    substituteDeclarations (resolvedValue [("b".toList, "X".toList)]) 0
        "%\x7ba|%\x7bb\x7d\x7d %\x7bb\x7d".toList = "%\x7bb\x7d X".toList := by
  decide

/-! ## Theorems: the translator wrappers -/

/-- Claim C5.  The translator built by `NewInterpolatedTranslator` returns no
error if and only if the base translator returns no error, with some template
`t`, and the interpolator, run on `t` with the same property source in the
state the base left, returns no error; the result and the final state are then
exactly those of the interpolator. -/
theorem NewInterpolatedTranslator_success_iff {σ : Type} (Quote : Str → Str)
    (base : Translator σ) (interp : Interpolator σ) (key : Str)
    (props : TranslationProperties σ) (s : σ) :
    ((NewInterpolatedTranslator Quote base interp key props s).1.2 = none ↔
      ∃ t s1, base key props s = ((t, none), s1) ∧ (interp t props s1).1.2 = none) ∧
    (∀ t s1, base key props s = ((t, none), s1) → (interp t props s1).1.2 = none →
      NewInterpolatedTranslator Quote base interp key props s = interp t props s1) := by
  constructor
  · constructor
    · intro h
      rcases hb : base key props s with ⟨⟨t, _ | e⟩, s1⟩
      · refine ⟨t, s1, rfl, ?_⟩
        rcases hi : interp t props s1 with ⟨⟨r, _ | e2⟩, s2⟩
        · rfl
        · simp [NewInterpolatedTranslator, hb, hi] at h
      · simp [NewInterpolatedTranslator, hb] at h
    · rintro ⟨t, s1, hb, hi⟩
      rcases hi2 : interp t props s1 with ⟨⟨r, _ | e2⟩, s2⟩
      · simp [NewInterpolatedTranslator, hb, hi2]
      · simp [hi2] at hi
  · intro t s1 hb hi
    rcases hi2 : interp t props s1 with ⟨⟨r, _ | e2⟩, s2⟩
    · simp [NewInterpolatedTranslator, hb, hi2]
    · simp [hi2] at hi

theorem NewInterpolatedTranslator_success_iff_witness :
    NewInterpolatedTranslator quotePlain successfulTranslator successfulInterpolator
        "my.key".toList recordingProperties [] =
      (("interpolated translated my.key".toList, none),
        ["translator".toList, "interpolator".toList]) :=
  ((NewInterpolatedTranslator_success_iff quotePlain successfulTranslator
      successfulInterpolator "my.key".toList recordingProperties []).2
    "translated my.key".toList ["translator".toList] (by decide) (by decide)).trans (by decide)

/-- Claim C6.  When the base translator fails on `(key, props)` with error `e`,
the translator built by `NewInterpolatedTranslator` returns the empty string
and the very error `e`, whatever the interpolator is, and the world state is
the one the base translator left: nothing ran after it, so the interpolator
made no query to the property source. -/
theorem NewInterpolatedTranslator_base_failure {σ : Type} (Quote : Str → Str)
    (base : Translator σ) (key : Str) (props : TranslationProperties σ) (s s1 : σ)
    (t : Str) (e : GoError) (hfail : base key props s = ((t, some e), s1)) :
    (∀ interp : Interpolator σ,
      NewInterpolatedTranslator Quote base interp key props s = (([], some e), s1)) ∧
    (∀ i1 i2 : Interpolator σ,
      NewInterpolatedTranslator Quote base i1 key props s =
        NewInterpolatedTranslator Quote base i2 key props s) := by
  have h : ∀ interp : Interpolator σ,
      NewInterpolatedTranslator Quote base interp key props s = (([], some e), s1) := by
    intro interp
    simp [NewInterpolatedTranslator, hfail]
  exact ⟨h, fun i1 i2 => by rw [h i1, h i2]⟩

theorem NewInterpolatedTranslator_base_failure_witness :
    errTranslator "my.key".toList recordingProperties [] =
      (([], some (Errorf "some error")), ["translator".toList]) ∧
    (∀ interp : Interpolator (List Str),
      NewInterpolatedTranslator quotePlain errTranslator interp "my.key".toList
        recordingProperties [] = (([], some (Errorf "some error")), ["translator".toList])) ∧
    (∀ i1 i2 : Interpolator (List Str),
      NewInterpolatedTranslator quotePlain errTranslator i1 "my.key".toList
          recordingProperties [] =
        NewInterpolatedTranslator quotePlain errTranslator i2 "my.key".toList
          recordingProperties []) :=
  ⟨by decide,
    NewInterpolatedTranslator_base_failure quotePlain errTranslator "my.key".toList
      recordingProperties [] ["translator".toList] [] (Errorf "some error") (by decide)⟩

/-- Claim C7.  When the base translator succeeds on `(key, props)` with the
template `t` and the interpolator fails on `(t, props)` with error `e`, the
translator built by `NewInterpolatedTranslator` returns the empty string, not
`t`, and an error whose message is `translating `, the quoted key, `: ` and the
message of `e`. -/
theorem NewInterpolatedTranslator_interpolation_failure {σ : Type} (Quote : Str → Str)
    (base : Translator σ) (interp : Interpolator σ) (key : Str)
    (props : TranslationProperties σ) (s s1 s2 : σ) (t r : Str) (e : GoError)
    (hbase : base key props s = ((t, none), s1))
    (hinterp : interp t props s1 = ((r, some e), s2)) :
    NewInterpolatedTranslator Quote base interp key props s =
      (([], some ⟨"translating ".toList ++ Quote key ++ ": ".toList ++ e.msg⟩), s2) := by
  simp [NewInterpolatedTranslator, hbase, hinterp, Errorf2]

theorem NewInterpolatedTranslator_interpolation_failure_witness :
    successfulTranslator "my.key".toList recordingProperties [] =
      (("translated my.key".toList, none), ["translator".toList]) ∧
    errInterpolator "translated my.key".toList recordingProperties ["translator".toList] =
      (([], some (Errorf "some error")), ["translator".toList, "interpolator".toList]) ∧
    NewInterpolatedTranslator quotePlain successfulTranslator errInterpolator "my.key".toList
        recordingProperties [] =
      (([], some ⟨"translating ".toList ++ quotePlain "my.key".toList ++ ": ".toList ++
          (Errorf "some error").msg⟩),
        ["translator".toList, "interpolator".toList]) :=
  ⟨by decide, by decide,
    NewInterpolatedTranslator_interpolation_failure quotePlain successfulTranslator
      errInterpolator "my.key".toList recordingProperties [] ["translator".toList]
      ["translator".toList, "interpolator".toList] "translated my.key".toList []
      (Errorf "some error") (by decide) (by decide)⟩

/-- Claim C8.  The translator built by `NewDefaultTranslator d base` never
returns an error.  It runs `base` once, on the same key, property source and
world state, and ends in the state `base` left; it returns the translation of
`base` unchanged when `base` returns no error and returns `d` when `base`
returns an error. -/
theorem NewDefaultTranslator_spec {σ : Type} (d : Str) (base : Translator σ) (key : Str)
    (props : TranslationProperties σ) (s : σ) :
    (NewDefaultTranslator d base key props s).1.2 = none ∧
    (NewDefaultTranslator d base key props s).2 = (base key props s).2 ∧
    ((base key props s).1.2 = none →
      (NewDefaultTranslator d base key props s).1.1 = (base key props s).1.1) ∧
    ((base key props s).1.2 ≠ none → (NewDefaultTranslator d base key props s).1.1 = d) := by
  rcases hb : base key props s with ⟨⟨t, _ | e⟩, s1⟩ <;>
    simp [NewDefaultTranslator, hb]

theorem NewDefaultTranslator_spec_witness :
    (NewDefaultTranslator "lost in translation".toList errTranslator
        "my translation key".toList recordingProperties []).1.1 = "lost in translation".toList ∧
    (NewDefaultTranslator "lost in translation".toList successfulTranslator
        "my translation key".toList recordingProperties []).1.1 =
      (successfulTranslator "my translation key".toList recordingProperties []).1.1 :=
  ⟨(NewDefaultTranslator_spec "lost in translation".toList errTranslator
      "my translation key".toList recordingProperties []).2.2.2 (by decide),
    (NewDefaultTranslator_spec "lost in translation".toList successfulTranslator
      "my translation key".toList recordingProperties []).2.2.1 (by decide)⟩

/-- Claim C9.  The translator built by `NewKeyAsDefaultTranslator base` never
returns an error.  It runs `base` once, on the same key, property source and
world state, and ends in the state `base` left; it returns the translation of
`base` unchanged when `base` returns no error and returns the lookup key
itself when `base` returns an error. -/
theorem NewKeyAsDefaultTranslator_spec {σ : Type} (base : Translator σ) (key : Str)
    (props : TranslationProperties σ) (s : σ) :
    (NewKeyAsDefaultTranslator base key props s).1.2 = none ∧
    (NewKeyAsDefaultTranslator base key props s).2 = (base key props s).2 ∧
    ((base key props s).1.2 = none →
      (NewKeyAsDefaultTranslator base key props s).1.1 = (base key props s).1.1) ∧
    ((base key props s).1.2 ≠ none →
      (NewKeyAsDefaultTranslator base key props s).1.1 = key) := by
  rcases hb : base key props s with ⟨⟨t, _ | e⟩, s1⟩ <;>
    simp [NewKeyAsDefaultTranslator, hb]

theorem NewKeyAsDefaultTranslator_spec_witness :
    (NewKeyAsDefaultTranslator errTranslator "my.key".toList recordingProperties []).1.1 =
      "my.key".toList ∧
    (NewKeyAsDefaultTranslator successfulTranslator "my.key".toList
        recordingProperties []).1.1 =
      (successfulTranslator "my.key".toList recordingProperties []).1.1 :=
  ⟨(NewKeyAsDefaultTranslator_spec errTranslator "my.key".toList
      recordingProperties []).2.2.2 (by decide),
    (NewKeyAsDefaultTranslator_spec successfulTranslator "my.key".toList
      recordingProperties []).2.2.1 (by decide)⟩

/-- Claim C10.  The interpolator built by `NewNoErrorInterpolator i` never
returns an error.  It runs `i` once, on the same text, property source and
world state, and ends in the state `i` left; it returns the result of `i` when
`i` returns no error and the text it was given, unmodified, when `i` returns
an error. -/
theorem NewNoErrorInterpolator_spec {σ : Type} (i : Interpolator σ) (text : Str)
    (props : TranslationProperties σ) (s : σ) :
    (NewNoErrorInterpolator i text props s).1.2 = none ∧
    (NewNoErrorInterpolator i text props s).2 = (i text props s).2 ∧
    ((i text props s).1.2 = none →
      (NewNoErrorInterpolator i text props s).1.1 = (i text props s).1.1) ∧
    ((i text props s).1.2 ≠ none → (NewNoErrorInterpolator i text props s).1.1 = text) := by
  rcases hb : i text props s with ⟨⟨t, _ | e⟩, s1⟩ <;>
    simp [NewNoErrorInterpolator, hb]

theorem NewNoErrorInterpolator_spec_witness :
    (NewNoErrorInterpolator errInterpolator "this other text".toList
        recordingProperties []).1.1 = "this other text".toList ∧
    (NewNoErrorInterpolator successfulInterpolator "this text".toList
        recordingProperties []).1.1 =
      (successfulInterpolator "this text".toList recordingProperties []).1.1 :=
  ⟨(NewNoErrorInterpolator_spec errInterpolator "this other text".toList
      recordingProperties []).2.2.2 (by decide),
    (NewNoErrorInterpolator_spec successfulInterpolator "this text".toList
      recordingProperties []).2.2.1 (by decide)⟩

/-! ## Theorems: templates without declarations, and sources that agree -/

/-- The scan finds no declaration exactly when the pattern matches at no
position of the text. -/
theorem declarations_eq_nil_iff (text : Str) :
    declarations text = [] ↔ ∀ pre rest, text = pre ++ rest → matchHere rest = none := by
  induction text with
  | nil =>
    constructor
    · intro _ pre rest h
      have : rest = [] := (List.append_eq_nil.1 h.symm).2
      subst this
      rfl
    · intro _; rfl
  | cons c s ih =>
    cases hm : matchHere (c :: s) with
    | some d =>
      obtain ⟨rest, _, hd⟩ := declarations_match (c :: s) d hm
      constructor
      · intro h; rw [hd] at h; cases h
      · intro h
        have := h [] (c :: s) rfl
        rw [hm] at this; cases this
    | none =>
      rw [declarations_no_match c s hm, ih]
      constructor
      · intro h pre rest hpre
        cases pre with
        | nil => simp only [List.nil_append] at hpre; rw [← hpre]; exact hm
        | cons p pre =>
          simp only [List.cons_append, List.cons.injEq] at hpre
          exact h pre rest hpre.2
      · intro h pre rest hpre
        exact h (c :: pre) rest (by simp [hpre])

/-- Claim C11.  When the placeholder grammar matches at no position of the
template (the empty template included), `Interpolate` returns the template
unchanged and no error, and asks the property source nothing. -/
theorem Interpolate_no_declaration {σ : Type} (Quote : Str → Str) (text : Str)
    (hno : ∀ pre rest, text = pre ++ rest → matchHere rest = none)
    (props : TranslationProperties σ) (s : σ) :
    interpolator.Interpolate Quote text props s = ((text, none), s) := by
  have h : declarations text = [] := (declarations_eq_nil_iff text).2 hno
  simp [interpolator.Interpolate, findInterpolations_eq_map, h, interpolateLoop]

theorem Interpolate_no_declaration_witness :
    interpolator.Interpolate quotePlain [] recordingProperties [] = (([], none), []) ∧
    interpolator.Interpolate quotePlain "this text %\x7b\x7d".toList recordingProperties [] =
      (("this text %\x7b\x7d".toList, none), []) :=
  ⟨Interpolate_no_declaration quotePlain []
      ((declarations_eq_nil_iff []).1 (by decide)) recordingProperties [],
    Interpolate_no_declaration quotePlain "this text %\x7b\x7d".toList
      ((declarations_eq_nil_iff _).1 (by decide)) recordingProperties []⟩

/-- The loop run on two sources that give the same answer for every name of
the interpolations returns the same string and fails on both or on none. -/
theorem interpolateLoop_agree {σ1 σ2 : Type} (Quote : Str → Str)
    (p1 : TranslationProperties σ1) (p2 : TranslationProperties σ2)
    (l : List interpolation)
    (hagree : ∀ i ∈ l, ∀ s1 s2, SameAnswer (p1 i.property s1).1 (p2 i.property s2).1) :
    ∀ (text : Str) (s1 : σ1) (s2 : σ2),
      (interpolateLoop Quote p1 l text s1).1.1 = (interpolateLoop Quote p2 l text s2).1.1 ∧
      ((interpolateLoop Quote p1 l text s1).1.2 = none ↔
        (interpolateLoop Quote p2 l text s2).1.2 = none) := by
  induction l with
  | nil => intro text s1 s2; simp [interpolateLoop]
  | cons i rest ih =>
    intro text s1 s2
    have ih1 := ih (fun j hj => hagree j (List.mem_cons_of_mem _ hj))
    have h := hagree i (List.mem_cons_self _ _) s1 s2
    rcases h1 : p1 i.property s1 with ⟨⟨v1, _ | e1⟩, t1⟩ <;>
      rcases h2 : p2 i.property s2 with ⟨⟨v2, _ | e2⟩, t2⟩ <;>
      simp only [SameAnswer, h1, h2] at h
    · have hv : v1 = v2 := by simpa using h
      subst hv
      simp only [interpolateLoop, h1, h2]
      exact ih1 _ t1 t2
    · simp at h
    · simp at h
    · simp only [interpolateLoop, h1, h2]
      cases i.hasDefaultValue
      · simp
      · simpa using ih1 _ t1 t2

/-- Claim C12.  When two property sources give the same answer (the same
value, or not found on both) for every name declared in the template,
`Interpolate` returns the same string on both and fails on both or on
neither; what the sources hold under other names has no influence. -/
theorem Interpolate_same_on_agreeing_sources {σ1 σ2 : Type} (Quote : Str → Str) (text : Str)
    (p1 : TranslationProperties σ1) (p2 : TranslationProperties σ2)
    (hagree : ∀ d ∈ declarations text, ∀ s1 s2,
      SameAnswer (p1 d.name s1).1 (p2 d.name s2).1)
    (s1 : σ1) (s2 : σ2) :
    (interpolator.Interpolate Quote text p1 s1).1.1 =
        (interpolator.Interpolate Quote text p2 s2).1.1 ∧
    ((interpolator.Interpolate Quote text p1 s1).1.2 = none ↔
      (interpolator.Interpolate Quote text p2 s2).1.2 = none) := by
  unfold interpolator.Interpolate
  apply interpolateLoop_agree
  intro i hi
  rw [findInterpolations_eq_map] at hi
  obtain ⟨d, hd, rfl⟩ := List.mem_map.1 hi
  exact hagree d hd

theorem Interpolate_same_on_agreeing_sources_witness :
    (∀ d ∈ declarations "my name is %\x7bname\x7d".toList, ∀ s1 s2 : Unit,
      SameAnswer ((NewTranslationProperties profile : TranslationProperties Unit) d.name s1).1
        ((NewTranslationProperties profileWithAge : TranslationProperties Unit) d.name s2).1) ∧
    (interpolator.Interpolate quotePlain "my name is %\x7bname\x7d".toList
        (NewTranslationProperties profile) ()).1.1 =
      (interpolator.Interpolate quotePlain "my name is %\x7bname\x7d".toList
        (NewTranslationProperties profileWithAge) ()).1.1 ∧
    ((interpolator.Interpolate quotePlain "my name is %\x7bname\x7d".toList
        (NewTranslationProperties profile) ()).1.2 = none ↔
      (interpolator.Interpolate quotePlain "my name is %\x7bname\x7d".toList
        (NewTranslationProperties profileWithAge) ()).1.2 = none) :=
  have h : ∀ d ∈ declarations "my name is %\x7bname\x7d".toList, ∀ s1 s2 : Unit,
      SameAnswer ((NewTranslationProperties profile : TranslationProperties Unit) d.name s1).1
        ((NewTranslationProperties profileWithAge : TranslationProperties Unit) d.name s2).1 := by
    intro d hd s1 s2
    have hds : declarations "my name is %\x7bname\x7d".toList = [⟨"name".toList, none⟩] := by
      decide
    rw [hds] at hd
    have hd1 : d = ⟨"name".toList, none⟩ := by simpa using hd
    subst hd1
    cases s1
    cases s2
    exact Or.inl (by decide)
  ⟨h, Interpolate_same_on_agreeing_sources quotePlain "my name is %\x7bname\x7d".toList
    (NewTranslationProperties profile) (NewTranslationProperties profileWithAge) h () ()⟩

/-! ## Theorems: keys that do not lead to a leaf, and the empty separator -/

/-- What `Translate` returns is read off what `find` returns on the key path. -/
theorem yamlTranslator_Translate_eq {σ : Type} (Quote : Str → Str) (t : yamlTranslator)
    (key : Str) (props : TranslationProperties σ) (s : σ) :
    t.Translate Quote key props s =
      match t.translations.find (keyPath key t.separator) with
      | .panic m => .panic m
      | .ret (translation, some err) =>
        .ret ((translation, some (Errorf2 "translating " (Quote key) err)), s)
      | .ret (translation, none) => .ret ((translation, none), s) := by
  rfl

/-- A walk that ends on a branch makes `find` return `incomplete path`. -/
theorem find_ends_on_branch {m : yamlTranslations} {path : List Str}
    (h : EndsOnBranch m path) :
    yamlTranslations.find m path = .ret ([], some (Errorf "incomplete path")) := by
  induction h with
  | last hk => simp [yamlTranslations.find, hk]
  | step hk _ ih => simp [yamlTranslations.find, hk, ih]

/-- A walk that reaches a leaf before the path ends makes `find` return
`not found`. -/
theorem find_past_leaf {m : yamlTranslations} {p1 : List Str} {v : Str}
    (h : Reaches m p1 v) (p2 : List Str) (hp2 : p2 ≠ []) :
    yamlTranslations.find m (p1 ++ p2) = .ret ([], some (Errorf "not found")) := by
  induction h with
  | leaf hk =>
    obtain ⟨x, xs, rfl⟩ := List.exists_cons_of_ne_nil hp2
    simp [yamlTranslations.find, hk]
  | step hk _ ih => simp [yamlTranslations.find, hk, ih]

/-- Claim C14.  When every segment of the key is found and the last one names
a mapping, not a leaf string, `Translate` fails: it returns the empty string
and the error `translating <quoted key>: incomplete path`.  This holds on
every tree, normalized or not. -/
theorem yamlTranslator_Translate_branch_fails {σ : Type} (Quote : Str → Str)
    (t : yamlTranslator) (key : Str)
    (hbranch : EndsOnBranch t.translations (keyPath key t.separator))
    (props : TranslationProperties σ) (s : σ) :
    t.Translate Quote key props s =
      .ret (([], some (Errorf2 "translating " (Quote key) (Errorf "incomplete path"))), s) := by
  rw [yamlTranslator_Translate_eq, find_ends_on_branch hbranch]

theorem yamlTranslator_Translate_branch_fails_witness :
    EndsOnBranch exampleTranslator.translations
      (keyPath "greetings.bye".toList exampleTranslator.separator) ∧
    exampleTranslator.Translate quotePlain "greetings.bye".toList recordingProperties [] =
      .ret (([], some (Errorf2 "translating " (quotePlain "greetings.bye".toList)
        (Errorf "incomplete path"))), []) :=
  have h : EndsOnBranch exampleTranslator.translations
      (keyPath "greetings.bye".toList exampleTranslator.separator) :=
    @EndsOnBranch.step _
      [("bye".toList, .translations [("night".toList, .str "Buenas noches".toList)])] _ _ rfl
      (@EndsOnBranch.last _ [("night".toList, .str "Buenas noches".toList)] _ rfl)
  ⟨h, yamlTranslator_Translate_branch_fails quotePlain exampleTranslator
    "greetings.bye".toList h recordingProperties []⟩

/-- Claim C15.  When a proper initial part `p1` of the segments of the key
already reaches a leaf string, `Translate` fails whatever the remaining
segments `p2` are, empty segments included: it returns the empty string and
the error `translating <quoted key>: not found`.  This holds on every tree,
normalized or not. -/
theorem yamlTranslator_Translate_past_leaf_fails {σ : Type} (Quote : Str → Str)
    (t : yamlTranslator) (key : Str) (p1 p2 : List Str) (v : Str)
    (hpath : keyPath key t.separator = p1 ++ p2) (hp2 : p2 ≠ [])
    (hleaf : Reaches t.translations p1 v)
    (props : TranslationProperties σ) (s : σ) :
    t.Translate Quote key props s =
      .ret (([], some (Errorf2 "translating " (Quote key) (Errorf "not found"))), s) := by
  rw [yamlTranslator_Translate_eq, hpath, find_past_leaf hleaf p2 hp2]

theorem yamlTranslator_Translate_past_leaf_fails_witness :
    keyPath "hello.".toList exampleTranslator.separator = ["hello".toList] ++ [[]] ∧
    Reaches exampleTranslator.translations ["hello".toList] "Hola".toList ∧
    exampleTranslator.Translate quotePlain "hello.".toList recordingProperties [] =
      .ret (([], some (Errorf2 "translating " (quotePlain "hello.".toList)
        (Errorf "not found"))), []) :=
  ⟨by decide, Reaches.leaf rfl,
    yamlTranslator_Translate_past_leaf_fails quotePlain exampleTranslator "hello.".toList
      ["hello".toList] [[]] "Hola".toList (by decide) (by decide)
      (Reaches.leaf rfl) recordingProperties []⟩

/-- Claim C20.  With the empty separator the whole key is the only segment:
`Translate` returns the string `v` and no error if and only if the top-level
mapping holds the leaf string `v` under the entire key; an entry that is a
mapping makes it fail, so no nested entry is ever reached; and a key that the
top-level mapping does not hold makes it fail. -/
theorem yamlTranslator_Translate_empty_separator {σ : Type} (Quote : Str → Str)
    (t : yamlTranslator) (hsep : t.separator = []) (key : Str)
    (props : TranslationProperties σ) (s : σ) :
    (∀ v, t.Translate Quote key props s = .ret ((v, none), s) ↔
      t.translations.lookup key = some (.str v)) ∧
    (∀ m1, t.translations.lookup key = some (.translations m1) →
      t.Translate Quote key props s =
        .ret (([], some (Errorf2 "translating " (Quote key) (Errorf "incomplete path"))), s)) ∧
    (t.translations.lookup key = none →
      t.Translate Quote key props s =
        .ret (([], some (Errorf2 "translating " (Quote key) (Errorf "not found"))), s)) := by
  have hp : keyPath key t.separator = [key] := by simp [keyPath, hsep]
  rw [yamlTranslator_Translate_eq, hp]
  cases hk : t.translations.lookup key with
  | none => simp [yamlTranslations.find, hk]
  | some val =>
    cases val with
    | str w =>
      refine ⟨?_, ?_, ?_⟩
      · intro v
        simp only [yamlTranslations.find, hk, List.length_nil, ne_eq, not_true_eq_false,
          if_false]
        constructor
        · intro h; cases h; rfl
        · intro h; cases h; rfl
      · intro m1 h; cases h
      · intro h; cases h
    | translations m1 =>
      simp [yamlTranslations.find, hk]
    | other ty =>
      simp [yamlTranslations.find, hk]

theorem yamlTranslator_Translate_empty_separator_witness :
    (yamlTranslator.mk [] exampleTranslations).separator = [] ∧
    (yamlTranslator.mk [] exampleTranslations).Translate quotePlain "hello".toList
        recordingProperties [] = .ret (("Hola".toList, none), []) ∧
    (yamlTranslator.mk [] exampleTranslations).Translate quotePlain
        "greetings.bye.night".toList recordingProperties [] =
      .ret (([], some (Errorf2 "translating " (quotePlain "greetings.bye.night".toList)
        (Errorf "not found"))), []) :=
  ⟨rfl,
    ((yamlTranslator_Translate_empty_separator quotePlain
      (yamlTranslator.mk [] exampleTranslations) rfl "hello".toList
      recordingProperties []).1 "Hola".toList).2 rfl,
    (yamlTranslator_Translate_empty_separator quotePlain
      (yamlTranslator.mk [] exampleTranslations) rfl "greetings.bye.night".toList
      recordingProperties []).2.2 rfl⟩

/-! ## Theorems: the property sources -/

/-- Claim C16.  The source built by `NewTranslationProperties m` returns the
value stored under `p` and no error when `p` is a key of `m`, whatever the
value is, the empty string included; it returns the empty string and the
error `property not available` when `p` is not a key of `m`.  The world state
is left as it was. -/
theorem NewTranslationProperties_spec {σ : Type} (m : List (Str × Str)) (p : Str) (s : σ) :
    (∀ v, m.lookup p = some v → NewTranslationProperties m p s = ((v, none), s)) ∧
    (m.lookup p = none →
      NewTranslationProperties m p s =
        (([], some ⟨"property not available".toList⟩), s)) := by
  unfold NewTranslationProperties
  cases m.lookup p <;> simp [Errorf]

theorem NewTranslationProperties_spec_witness :
    (NewTranslationProperties [("prop".toList, [])] "prop".toList () = (([], none), ())) ∧
    (NewTranslationProperties [("prop".toList, "my value".toList)] "other prop".toList () =
      (([], some ⟨"property not available".toList⟩), ())) :=
  ⟨(NewTranslationProperties_spec [("prop".toList, [])] "prop".toList ()).1 [] (by decide),
    (NewTranslationProperties_spec [("prop".toList, "my value".toList)]
      "other prop".toList ()).2 (by decide)⟩

/-- Claim C17.  The source built by `NewTranslationPropertiesWithDefault ps d`
never returns an error.  It asks `ps` once, for the same name in the same
world state, and ends in the state `ps` left; it returns the value of `ps`
when `ps` returns no error, the empty string included, and `d` when `ps`
returns an error. -/
theorem NewTranslationPropertiesWithDefault_spec {σ : Type} (ps : TranslationProperties σ)
    (d : Str) (p : Str) (s : σ) :
    (NewTranslationPropertiesWithDefault ps d p s).1.2 = none ∧
    (NewTranslationPropertiesWithDefault ps d p s).2 = (ps p s).2 ∧
    ((ps p s).1.2 = none →
      (NewTranslationPropertiesWithDefault ps d p s).1.1 = (ps p s).1.1) ∧
    ((ps p s).1.2 ≠ none → (NewTranslationPropertiesWithDefault ps d p s).1.1 = d) := by
  rcases hb : ps p s with ⟨⟨t, _ | e⟩, s1⟩ <;>
    simp [NewTranslationPropertiesWithDefault, hb]

theorem NewTranslationPropertiesWithDefault_spec_witness :
    (NewTranslationPropertiesWithDefault (NewTranslationProperties [("property".toList, [])])
        "default value".toList "property".toList ()).1.1 = [] ∧
    (NewTranslationPropertiesWithDefault (NewTranslationProperties [])
        "default value".toList "property".toList ()).1.1 = "default value".toList :=
  ⟨((NewTranslationPropertiesWithDefault_spec (NewTranslationProperties [("property".toList, [])])
      "default value".toList "property".toList ()).2.2.1 (by decide)).trans (by decide),
    (NewTranslationPropertiesWithDefault_spec (NewTranslationProperties [])
      "default value".toList "property".toList ()).2.2.2 (by decide)⟩

/-- The loop never fails on a source that never returns an error. -/
theorem interpolateLoop_no_error {σ : Type} (Quote : Str → Str)
    (props : TranslationProperties σ) (hok : ∀ n s, (props n s).1.2 = none)
    (l : List interpolation) :
    ∀ (text : Str) (s : σ), (interpolateLoop Quote props l text s).1.2 = none := by
  induction l with
  | nil => intro text s; rfl
  | cons i rest ih =>
    intro text s
    have h := hok i.property s
    rcases hp : props i.property s with ⟨⟨v, _ | e⟩, s1⟩
    · simp only [interpolateLoop, hp]
      exact ih _ _
    · simp [hp] at h

/-- Claim C18.  `Interpolate` called with the source that
`NewTranslationPropertiesWithDefault ps d` builds never returns an error,
whatever the template, the wrapped source and the fallback are, and whether
or not the declarations of the template carry defaults. -/
theorem Interpolate_with_default_source_never_fails {σ : Type} (Quote : Str → Str)
    (text : Str) (ps : TranslationProperties σ) (d : Str) (s : σ) :
    (interpolator.Interpolate Quote text (NewTranslationPropertiesWithDefault ps d) s).1.2 =
      none := by
  unfold interpolator.Interpolate
  apply interpolateLoop_no_error
  intro n s1
  exact (NewTranslationPropertiesWithDefault_spec ps d n s1).1

theorem Interpolate_with_default_source_never_fails_witness :
    (interpolator.Interpolate quotePlain "my name is %\x7bfirstname\x7d".toList
        (NewTranslationProperties profile) ()).1.2 ≠ none ∧
    (interpolator.Interpolate quotePlain "my name is %\x7bfirstname\x7d".toList
        (NewTranslationPropertiesWithDefault (NewTranslationProperties profile)
          "unknown".toList) ()).1.2 = none :=
  ⟨by decide,
    Interpolate_with_default_source_never_fails quotePlain
      "my name is %\x7bfirstname\x7d".toList (NewTranslationProperties profile)
      "unknown".toList ()⟩

/-! ## Theorems: sequences of the document -/

theorem digitValue_digitChar (k : Nat) (hk : k < 10) : digitValue (Nat.digitChar k) = k := by
  interval_cases k <;> rfl

theorem digitChar_ne_dot (k : Nat) (hk : k < 10) : Nat.digitChar k ≠ '.' := by
  interval_cases k <;> decide

theorem toDigitsCore_foldl (fuel : Nat) :
    ∀ (n : Nat) (ds : Str), n < fuel →
      (Nat.toDigitsCore 10 fuel n ds).foldl (fun a c => a * 10 + digitValue c) 0 =
        ds.foldl (fun a c => a * 10 + digitValue c) n := by
  induction fuel with
  | zero => intro n ds h; omega
  | succ fuel ih =>
    intro n ds h
    have hd : digitValue (Nat.digitChar (n % 10)) = n % 10 :=
      digitValue_digitChar _ (Nat.mod_lt _ (by decide))
    simp only [Nat.toDigitsCore]
    split
    · rename_i h0
      have hn : n % 10 = n := by omega
      simp only [List.foldl, Nat.zero_mul, Nat.zero_add, hd]
      rw [hn]
    · rename_i h0
      rw [ih (n / 10) _ (by omega)]
      simp only [List.foldl, hd]
      congr 1
      omega

/-- Reading the decimal rendering of a number gives the number back. -/
theorem decimalValue_decimal (n : Nat) : decimalValue (decimal n) = n := by
  simp [decimalValue, decimal, Nat.toDigits, toDigitsCore_foldl (n + 1) n [] (by omega)]

/-- Different numbers have different decimal renderings. -/
theorem decimal_injective {i j : Nat} (h : decimal i = decimal j) : i = j := by
  have := congrArg decimalValue h
  simpa [decimalValue_decimal] using this

theorem toDigitsCore_no_dot (fuel : Nat) :
    ∀ (n : Nat) (ds : Str), (∀ c ∈ ds, c ≠ '.') →
      ∀ c ∈ Nat.toDigitsCore 10 fuel n ds, c ≠ '.' := by
  induction fuel with
  | zero => intro n ds h; simpa [Nat.toDigitsCore] using h
  | succ fuel ih =>
    intro n ds h
    have hd : Nat.digitChar (n % 10) ≠ '.' := digitChar_ne_dot _ (Nat.mod_lt _ (by decide))
    have h1 : ∀ c ∈ Nat.digitChar (n % 10) :: ds, c ≠ '.' := by
      intro c hc
      rcases List.mem_cons.1 hc with rfl | hc
      · exact hd
      · exact h c hc
    simp only [Nat.toDigitsCore]
    split
    · exact h1
    · exact ih _ _ h1

/-- The decimal rendering of a number holds no dot. -/
theorem dot_not_mem_decimal (n : Nat) : '.' ∉ decimal n := by
  intro h
  exact toDigitsCore_no_dot (n + 1) n [] (by simp) '.' h rfl

/-- A stretch of text without the one-character separator joins the current
segment. -/
theorem splitGo_single_append (c : Char) (a : Str) (ha : c ∉ a) :
    ∀ (cur rest : Str), splitGo [c] 0 cur (a ++ rest) = splitGo [c] 0 (cur ++ a) rest := by
  induction a with
  | nil => intro cur rest; simp
  | cons x a ih =>
    intro cur rest
    have hx : x ≠ c := fun h => ha (by simp [h])
    have hno : ¬ ∃ r, x :: (a ++ rest) = [c] ++ r := by
      rintro ⟨r, hr⟩
      simp only [List.singleton_append, List.cons.injEq] at hr
      exact hx hr.1
    rw [List.cons_append, splitGo_no_match [c] cur x (a ++ rest) hno,
      ih (fun h => ha (List.mem_cons_of_mem _ h))]
    simp

/-- Splitting `a.b` on the dot gives the two segments `a` and `b` when neither
holds a dot. -/
theorem Split_two_segments (c : Char) (a b : Str) (ha : c ∉ a) (hb : c ∉ b) :
    Split (a ++ [c] ++ b) [c] = [a, b] := by
  have h1 := splitGo_single_append c a ha [] ([c] ++ b)
  have h2 := splitGo_match [c] a b (by simp)
  have h3 := splitGo_single_append c b hb [] []
  simp only [List.nil_append, List.append_nil] at h1 h3
  simp only [Split, reduceCtorEq, if_false, List.append_assoc]
  rw [h1, h2, h3]
  simp [splitGo]

/-- What `yamlTranslationizeMapFrom` stores under `k`: the value of the entries
whose key prints as `k`, when they all have the same value, and otherwise what
was there before. -/
theorem lookup_yamlTranslationizeMapFrom (k : Str) (V : YamlValue)
    (ts : List (Scalar × RawValue)) :
    ∀ yts : yamlTranslations,
      (∀ e ∈ ts, e.1.format = k → yamlTranslationizeValue e.2 = V) →
      ((∃ e ∈ ts, e.1.format = k) → (yamlTranslationizeMapFrom yts ts).lookup k = some V) ∧
      ((∀ e ∈ ts, e.1.format ≠ k) → (yamlTranslationizeMapFrom yts ts).lookup k = yts.lookup k) := by
  induction ts with
  | nil => intro yts _; simp [yamlTranslationizeMapFrom]
  | cons e rest ih =>
    intro yts hV
    obtain ⟨k1, v1⟩ := e
    have ih1 := ih ((k1.format, yamlTranslationizeValue v1) :: yts)
      (fun e he => hV e (List.mem_cons_of_mem _ he))
    simp only [yamlTranslationizeMapFrom]
    constructor
    · rintro ⟨e, he, hek⟩
      by_cases hrest : ∃ e ∈ rest, e.1.format = k
      · exact ih1.1 hrest
      · have hnone : ∀ e ∈ rest, e.1.format ≠ k := fun e he hk => hrest ⟨e, he, hk⟩
        rw [ih1.2 hnone]
        rcases List.mem_cons.1 he with rfl | he
        · simp only at hek
          have := hV (k1, v1) (List.mem_cons_self _ _) hek
          simp only at this
          simp [List.lookup, hek, this]
        · exact absurd hek (hnone e he)
    · intro hall
      rw [ih1.2 (fun e he => hall e (List.mem_cons_of_mem _ he))]
      have : k1.format ≠ k := hall (k1, v1) (List.mem_cons_self _ _)
      have hne : (k == k1.format) = false := by
        simp only [beq_eq_false_iff_ne, ne_eq]
        exact fun h => this h.symm
      simp [List.lookup, hne]

/-- An index outside the range that `yamlTranslationizeSliceFrom` still has to
store is left as it was. -/
theorem lookup_yamlTranslationizeSliceFrom_outside (i : Nat) (l : List RawValue) :
    ∀ (yts : yamlTranslations) (j : Nat), (i < j ∨ j + l.length ≤ i) →
      (yamlTranslationizeSliceFrom yts j l).lookup (decimal i) = yts.lookup (decimal i) := by
  induction l with
  | nil => intro yts j _; simp [yamlTranslationizeSliceFrom]
  | cons v rest ih =>
    intro yts j h
    simp only [yamlTranslationizeSliceFrom]
    rw [ih _ (j + 1) (by simp only [List.length_cons] at h; omega)]
    have hij : i ≠ j := by simp only [List.length_cons] at h; omega
    have hne : (decimal i == decimal j) = false := by
      simp only [beq_eq_false_iff_ne, ne_eq]
      exact fun h => hij (decimal_injective h)
    simp [List.lookup, hne]

/-- The element of index `n` is stored under the decimal rendering of its
index. -/
theorem lookup_yamlTranslationizeSliceFrom_inside (l : List RawValue) :
    ∀ (yts : yamlTranslations) (j n : Nat) (hn : n < l.length),
      (yamlTranslationizeSliceFrom yts j l).lookup (decimal (j + n)) =
        some (yamlTranslationizeValue (l.get ⟨n, hn⟩)) := by
  induction l with
  | nil => intro yts j n hn; simp at hn
  | cons v rest ih =>
    intro yts j n hn
    simp only [yamlTranslationizeSliceFrom]
    cases n with
    | zero =>
      rw [Nat.add_zero, lookup_yamlTranslationizeSliceFrom_outside j rest _ (j + 1)
        (Or.inl (Nat.lt_succ_self j))]
      simp [List.lookup]
    | succ n =>
      have := ih ((decimal j, yamlTranslationizeValue v) :: yts) (j + 1) n
        (by simpa using hn)
      rw [show j + (n + 1) = j + 1 + n by omega]
      simpa using this

/-- The tree that `yamlTranslationizeValue` builds for a sequence of scalar
strings. -/
theorem yamlTranslationizeValue_stringSequence (xs : List Str) :
    yamlTranslationizeValue (stringSequence xs) =
      .translations (yamlTranslationizeSliceFrom [] 0
        (xs.map (fun x => RawValue.scalar (.str x)))) := by
  simp [stringSequence, yamlTranslationizeValue]

/-- What `find` returns on the path `[k, decimal i]` when `k` holds a sequence
of scalar strings. -/
theorem find_stringSequence (m : yamlTranslations) (k : Str) (xs : List Str)
    (hk : m.lookup k = some (yamlTranslationizeValue (stringSequence xs))) (i : Nat) :
    (∀ h : i < xs.length,
      yamlTranslations.find m [k, decimal i] = .ret (xs.get ⟨i, h⟩, none)) ∧
    (xs.length ≤ i →
      yamlTranslations.find m [k, decimal i] = .ret ([], some (Errorf "not found"))) := by
  rw [yamlTranslationizeValue_stringSequence] at hk
  constructor
  · intro h
    have hl : i < (xs.map (fun x => RawValue.scalar (.str x))).length := by simpa using h
    have := lookup_yamlTranslationizeSliceFrom_inside
      (xs.map (fun x => RawValue.scalar (.str x))) [] 0 i hl
    rw [Nat.zero_add] at this
    simp [yamlTranslations.find, hk, this, yamlTranslationizeValue, Scalar.format]
  · intro h
    have := lookup_yamlTranslationizeSliceFrom_outside i
      (xs.map (fun x => RawValue.scalar (.str x))) [] 0 (Or.inr (by simpa using h))
    simp [yamlTranslations.find, hk, this, List.lookup]

/-- Claim C19, refuted on a document with two top-level keys that print alike.
`collidingDocument` holds the sequence `[a, b]` under the string key `1`, which
has no dot, and the scalar `x` under the integer key `1`.  Both keys are
printed as `1` by `yamlTranslationizeMap`, and the entry visited last, here
that of the integer key, is the one the tree keeps: `Translate` on `1.0`
returns the empty string and `not found`, not the element `a` of index 0. -/
theorem NewYAMLTranslator_sequence_colliding_keys :
    collidingUnmarshal [] = .ok collidingDocument ∧
    (Scalar.str "1".toList, stringSequence ["a".toList, "b".toList]) ∈ collidingDocument ∧
    '.' ∉ "1".toList ∧
    0 < ["a".toList, "b".toList].length ∧
    ∃ t : yamlTranslator, NewYAMLTranslator collidingUnmarshal [] = .ok t ∧
      t.translations.lookup "1".toList = some (.str "x".toList) ∧
      t.Translate quotePlain ("1".toList ++ ".".toList ++ decimal 0) recordingProperties [] =
        .ret (([], some (Errorf2 "translating "
          (quotePlain ("1".toList ++ ".".toList ++ decimal 0)) (Errorf "not found"))), []) ∧
      t.Translate quotePlain ("1".toList ++ ".".toList ++ decimal 0) recordingProperties [] ≠
        .ret (("a".toList, none), []) :=
  ⟨rfl, by simp [collidingDocument], by decide, by decide,
    ⟨".".toList, yamlTranslationizeMap collidingDocument⟩, rfl, rfl, by decide, by decide⟩

/-- Claim C19, amended.  Let the parsed document hold the sequence `xs` of
scalar strings under the top-level key `k`, where `k` has no dot and every
top-level entry whose key prints as `k` holds that sequence.  Then
`NewYAMLTranslator` builds a translator, and for every `i` its `Translate` on
`k.<decimal i>` returns the element of index `i` of `xs`, counted from zero,
when `i < xs.length`, and fails with `not found` when `xs.length ≤ i`. -/
theorem NewYAMLTranslator_sequence {σ : Type} (Quote : Str → Str)
    (Unmarshal : Str → Except GoError (List (Scalar × RawValue))) (yml : Str)
    (ts : List (Scalar × RawValue)) (hparse : Unmarshal yml = .ok ts)
    (k : Str) (xs : List Str) (hk : '.' ∉ k)
    (hentry : (Scalar.str k, stringSequence xs) ∈ ts)
    (honly : ∀ e ∈ ts, e.1.format = k → e.2 = stringSequence xs)
    (i : Nat) (props : TranslationProperties σ) (s : σ) :
    ∃ t : yamlTranslator, NewYAMLTranslator Unmarshal yml = .ok t ∧
      (∀ h : i < xs.length,
        t.Translate Quote (k ++ ".".toList ++ decimal i) props s =
          .ret ((xs.get ⟨i, h⟩, none), s)) ∧
      (xs.length ≤ i →
        t.Translate Quote (k ++ ".".toList ++ decimal i) props s =
          .ret (([], some (Errorf2 "translating " (Quote (k ++ ".".toList ++ decimal i))
            (Errorf "not found"))), s)) := by
  refine ⟨⟨".".toList, yamlTranslationizeMap ts⟩, ?_, ?_⟩
  · simp [NewYAMLTranslator, NewYAMLTranslatorWithSeparator, hparse]
  · have hlook : (yamlTranslationizeMap ts).lookup k =
        some (yamlTranslationizeValue (stringSequence xs)) :=
      (lookup_yamlTranslationizeMapFrom k _ ts []
        (fun e he hek => by rw [honly e he hek])).1 ⟨_, hentry, rfl⟩
    have hpath : keyPath (k ++ ".".toList ++ decimal i) ".".toList = [k, decimal i] := by
      have := Split_two_segments '.' k (decimal i) hk (dot_not_mem_decimal i)
      simpa [keyPath] using this
    have hfind := find_stringSequence _ k xs hlook i
    constructor
    · intro h
      rw [yamlTranslator_Translate_eq]
      simp only [hpath, hfind.1 h]
    · intro h
      rw [yamlTranslator_Translate_eq]
      simp only [hpath, hfind.2 h]

theorem NewYAMLTranslator_sequence_witness :
    exampleUnmarshal [] = .ok exampleDocument ∧
    '.' ∉ "numbers".toList ∧
    ∃ t : yamlTranslator, NewYAMLTranslator exampleUnmarshal [] = .ok t ∧
      (∀ h : 2 < ["zero".toList, "one".toList, "two".toList, "three".toList].length,
        t.Translate quotePlain ("numbers".toList ++ ".".toList ++ decimal 2)
            recordingProperties [] =
          .ret ((["zero".toList, "one".toList, "two".toList, "three".toList].get ⟨2, h⟩,
            none), [])) ∧
      (["zero".toList, "one".toList, "two".toList, "three".toList].length ≤ 2 →
        t.Translate quotePlain ("numbers".toList ++ ".".toList ++ decimal 2)
            recordingProperties [] =
          .ret (([], some (Errorf2 "translating "
            (quotePlain ("numbers".toList ++ ".".toList ++ decimal 2))
            (Errorf "not found"))), [])) :=
  ⟨rfl, by decide,
    NewYAMLTranslator_sequence quotePlain exampleUnmarshal [] exampleDocument rfl
      "numbers".toList ["zero".toList, "one".toList, "two".toList, "three".toList]
      (by decide) (by simp [exampleDocument])
      (by
        intro e he hek
        simp only [exampleDocument, List.mem_cons, List.mem_singleton, List.not_mem_nil,
          or_false] at he
        rcases he with rfl | rfl
        · exact absurd hek (by decide)
        · rfl)
      2 recordingProperties []⟩

/-! ## Theorems: a template with exactly one declaration -/

/-- The text of a match is a body without `}` followed by `}`. -/
theorem Declaration.text_eq_body {s : Str} {d : Declaration} (h : matchHere s = some d) :
    ∃ body, d.text = body ++ ['}'] ∧ '}' ∉ body := by
  obtain ⟨_, hname, hdflt, _⟩ := (matchHere_eq_some_iff s d).1 h
  refine ⟨'%' :: '{' :: (d.name ++ d.defaultGroup), by simp [Declaration.text], ?_⟩
  intro hmem
  simp only [List.mem_cons, List.mem_append] at hmem
  rcases hmem with h1 | h1 | h1 | h1
  · exact absurd h1 (by decide)
  · exact absurd h1 (by decide)
  · exact (hname _ h1).1 rfl
  · rcases hd : d.dflt with _ | v
    · simp [Declaration.defaultGroup, hd] at h1
    · simp only [Declaration.defaultGroup, hd, List.mem_cons] at h1
      rcases h1 with h1 | h1
      · exact absurd h1 (by decide)
      · exact hdflt v hd _ h1 rfl

/-- The pattern matches wherever the text of a match occurs. -/
theorem matchHere_text_append {s : Str} {d : Declaration} (h : matchHere s = some d)
    (q : Str) : matchHere (d.text ++ q) = some d := by
  obtain ⟨h1, h2, h3, _⟩ := (matchHere_eq_some_iff s d).1 h
  exact (matchHere_eq_some_iff _ d).2 ⟨h1, h2, h3, q, rfl⟩

/-- A text that ends in `}` and holds no other `}` does not overlap itself. -/
theorem no_self_overlap (body a b c : Str) (hbody : '}' ∉ body)
    (h1 : body ++ ['}'] = a ++ b) (h2 : body ++ ['}'] = b ++ c)
    (hb : b ≠ []) (hc : c ≠ []) : False := by
  rcases List.eq_nil_or_concat b with hb0 | ⟨bi, bl, rfl⟩
  · exact hb hb0
  rcases List.eq_nil_or_concat c with hc0 | ⟨ci, cl, rfl⟩
  · exact hc hc0
  have e1 : body ++ ['}'] = (a ++ bi) ++ [bl] := by simpa using h1
  have e2 : body ++ ['}'] = (bi ++ [bl] ++ ci) ++ [cl] := by simpa using h2
  have hbl := (List.append_inj' e1 rfl).2
  have hbody2 := (List.append_inj' e2 rfl).1
  have hbl1 : bl = '}' := by simpa using hbl.symm
  apply hbody
  rw [hbody2, hbl1]
  simp

/-- Where `old` occurs at no position of `g` followed by `tail`, the
replacement passes over `g`. -/
theorem Replace_skip_prefix (old new : Str) (hold : old ≠ []) (g tail : Str)
    (hno : ∀ pre rest, g = pre ++ rest → rest ≠ [] → ¬ ∃ q, rest ++ tail = old ++ q) :
    Replace (g ++ tail) old new = g ++ Replace tail old new := by
  induction g with
  | nil => rfl
  | cons c g ih =>
    have h0 := hno [] (c :: g) rfl (by simp)
    rw [List.cons_append, Replace_no_match c (g ++ tail) old new hold (by simpa using h0),
      ih (fun pre rest hg hr => hno (c :: pre) rest (by simp [hg]) hr)]
    rfl

/-- A text in which `old` occurs at no position is left as it is. -/
theorem Replace_no_occurrence (old new : Str) (hold : old ≠ []) (r : Str)
    (hno : ∀ pre rest, r = pre ++ rest → ¬ ∃ q, rest = old ++ q) :
    Replace r old new = r := by
  have := Replace_skip_prefix old new hold r []
    (fun pre rest hr _ => by simpa using hno pre rest hr)
  simpa [Replace_nil old new hold] using this

/-- The scan that finds exactly one declaration passes a stretch `g` where the
pattern matches nowhere, then the match, then a rest without declarations. -/
theorem declarations_single (text : Str) (d : Declaration) (h : declarations text = [d]) :
    ∃ g r, text = g ++ d.text ++ r ∧ matchHere (d.text ++ r) = some d ∧
      declarations r = [] ∧
      ∀ pre rest, g = pre ++ rest → rest ≠ [] → matchHere (rest ++ d.text ++ r) = none := by
  induction text with
  | nil => simp [declarations, findAllGo] at h
  | cons c s ih =>
    cases hm : matchHere (c :: s) with
    | some d1 =>
      obtain ⟨rest, hs, hd⟩ := declarations_match (c :: s) d1 hm
      rw [hd] at h
      have hd1 : d1 = d := by simpa using (List.cons.inj h).1
      have hrest : declarations rest = [] := (List.cons.inj h).2
      subst hd1
      refine ⟨[], rest, by simpa using hs, by rw [← hs]; exact hm, hrest, ?_⟩
      intro pre r1 hg hr1
      have := List.append_eq_nil.1 hg.symm
      exact absurd this.2 hr1
    | none =>
      rw [declarations_no_match c s hm] at h
      obtain ⟨g, r, hs, hmd, hr, hg⟩ := ih h
      refine ⟨c :: g, r, by simp [hs], hmd, hr, ?_⟩
      intro pre rest hpre hrest
      cases pre with
      | nil =>
        simp only [List.nil_append] at hpre
        rw [← hpre, List.cons_append, List.cons_append, ← hs]
        exact hm
      | cons p pre =>
        simp only [List.cons_append, List.cons.injEq] at hpre
        exact hg pre rest hpre.2 hrest

/-- In a text where the scan finds exactly one declaration, the text of the
declaration occurs at one position only. -/
theorem single_occurrence (g r pre post : Str) (d : Declaration)
    (hmd : matchHere (d.text ++ r) = some d) (hr : declarations r = [])
    (hg : ∀ pre rest, g = pre ++ rest → rest ≠ [] → matchHere (rest ++ d.text ++ r) = none)
    (heq : pre ++ d.text ++ post = g ++ d.text ++ r) : pre = g ∧ post = r := by
  have hpost : matchHere (d.text ++ post) = some d := matchHere_text_append hmd post
  have hrno := (declarations_eq_nil_iff r).1 hr
  obtain ⟨body, hbody, hclose⟩ := Declaration.text_eq_body hmd
  rw [List.append_assoc, List.append_assoc] at heq
  rcases List.append_eq_append_iff.1 heq with ⟨a1, hga, hL⟩ | ⟨c1, hpc, hL⟩
  · by_cases ha : a1 = []
    · subst ha
      simp only [List.append_nil, List.nil_append] at hga hL
      exact ⟨hga.symm, List.append_cancel_left hL⟩
    · have := hg pre a1 hga ha
      rw [List.append_assoc, ← hL, hpost] at this
      cases this
  · by_cases hc : c1 = []
    · subst hc
      simp only [List.append_nil, List.nil_append] at hpc hL
      exact ⟨hpc, (List.append_cancel_left hL).symm⟩
    · exfalso
      rcases List.append_eq_append_iff.1 hL with ⟨a2, hc1, hr2⟩ | ⟨c2, hL2, hr2⟩
      · have := hrno a2 (d.text ++ post) hr2
        rw [hpost] at this
        cases this
      · by_cases hc2 : c2 = []
        · subst hc2
          simp only [List.nil_append] at hr2
          have := hrno [] (d.text ++ post) (by simpa using hr2.symm)
          rw [hpost] at this
          cases this
        · rcases List.append_eq_append_iff.1 hr2 with ⟨x, hx, _⟩ | ⟨y, hy, _⟩
          · have l1 := congrArg List.length hL2
            have l2 := congrArg List.length hx
            have l3 : 0 < c1.length := List.length_pos.2 hc
            simp only [List.length_append] at l1 l2
            omega
          · by_cases hy0 : y = []
            · subst hy0
              have l1 := congrArg List.length hL2
              have l2 := congrArg List.length hy
              have l3 : 0 < c1.length := List.length_pos.2 hc
              simp only [List.length_append, List.length_nil] at l1 l2
              omega
            · rw [hbody] at hL2 hy
              exact no_self_overlap body c1 c2 y hclose hL2 hy hc2 hy0

/-- In a text where the scan finds exactly one declaration, replacing the text
of the declaration replaces the match and nothing else. -/
theorem Replace_single_declaration (text pre post : Str) (d : Declaration)
    (hone : declarations text = [d]) (hform : text = pre ++ d.text ++ post) (v : Str) :
    Replace text d.text v = pre ++ v ++ post := by
  obtain ⟨g, r, hs, hmd, hr, hg⟩ := declarations_single text d hone
  obtain ⟨rfl, rfl⟩ := single_occurrence g r pre post d hmd hr hg (hform.symm.trans hs)
  have hold : d.text ≠ [] := by simp [Declaration.text]
  have hrno := (declarations_eq_nil_iff post).1 hr
  rw [hform, List.append_assoc,
    Replace_skip_prefix d.text v hold pre (d.text ++ post), Replace_match _ _ _ hold,
    Replace_no_occurrence d.text v hold post]
  · simp
  · rintro p1 rest hp ⟨q, hq⟩
    have := hrno p1 rest hp
    rw [hq, matchHere_text_append hmd q] at this
    cases this
  · rintro p1 rest hp hrest ⟨q, hq⟩
    have := hg p1 rest hp hrest
    rw [List.append_assoc, hq, matchHere_text_append hmd q] at this
    cases this

/-- Claim C13.  Let the scan find exactly one declaration `d` in the template,
and let the template be `pre ++ literal ++ post`, where `literal` is the text
of `d`.  When the source finds the name of `d`, with value `v`, `Interpolate`
returns `pre ++ v ++ post`, whether or not `d` carries a default; when the
source does not find the name and `d` carries the default `dv`, it returns
`pre ++ dv ++ post`.  In both cases there is no error and the source has been
asked once. -/
theorem Interpolate_single_declaration {σ : Type} (Quote : Str → Str)
    (text pre post : Str) (d : Declaration)
    (hone : declarations text = [d]) (hform : text = pre ++ d.text ++ post)
    (props : TranslationProperties σ) (s : σ) :
    (∀ v s1, props d.name s = ((v, none), s1) →
      interpolator.Interpolate Quote text props s = ((pre ++ v ++ post, none), s1)) ∧
    (∀ x e s1 dv, props d.name s = ((x, some e), s1) → d.dflt = some dv →
      interpolator.Interpolate Quote text props s = ((pre ++ dv ++ post, none), s1)) := by
  constructor
  · intro v s1 hp
    simp only [interpolator.Interpolate, findInterpolations_eq_map, hone, List.map_cons,
      List.map_nil, interpolateLoop, hp]
    rw [Replace_single_declaration text pre post d hone hform v]
  · intro x e s1 dv hp hdv
    simp only [interpolator.Interpolate, findInterpolations_eq_map, hone, List.map_cons,
      List.map_nil, interpolateLoop, hp, hdv, Option.isSome_some, Bool.not_true,
      Bool.false_eq_true, if_false, Option.getD_some]
    rw [Replace_single_declaration text pre post d hone hform dv]

theorem Interpolate_single_declaration_witness :
    declarations "my name is %\x7bname|Frida Kahlo\x7d.".toList =
      [⟨"name".toList, some "Frida Kahlo".toList⟩] ∧
    interpolator.Interpolate quotePlain "my name is %\x7bname|Frida Kahlo\x7d.".toList
        (NewTranslationProperties profile) () =
      (("my name is ".toList ++ "Alan Ginsberg".toList ++ ".".toList, none), ()) ∧
    declarations "my name is %\x7bfirstname|Frida\x7d.".toList =
      [⟨"firstname".toList, some "Frida".toList⟩] ∧
    interpolator.Interpolate quotePlain "my name is %\x7bfirstname|Frida\x7d.".toList
        (NewTranslationProperties profile) () =
      (("my name is ".toList ++ "Frida".toList ++ ".".toList, none), ()) :=
  ⟨by decide,
    (Interpolate_single_declaration quotePlain
      "my name is %\x7bname|Frida Kahlo\x7d.".toList "my name is ".toList ".".toList
      ⟨"name".toList, some "Frida Kahlo".toList⟩ (by decide) (by decide)
      (NewTranslationProperties profile) ()).1 "Alan Ginsberg".toList () (by decide),
    by decide,
    (Interpolate_single_declaration quotePlain
      "my name is %\x7bfirstname|Frida\x7d.".toList "my name is ".toList ".".toList
      ⟨"firstname".toList, some "Frida".toList⟩ (by decide) (by decide)
      (NewTranslationProperties profile) ()).2 [] (Errorf "property not available") ()
      "Frida".toList (by decide) (by decide)⟩

/-! ## Theorems: openers without a name, the order of wrapping, empty defaults -/

/-- The check `openersClosed` implies that every `%{` of the text is followed
by `}` at once. -/
theorem openersClosed_sound (text : Str) (h : openersClosed text = true) :
    ∀ pre rest, text = pre ++ '%' :: '{' :: rest → ∃ r, rest = '}' :: r := by
  induction text with
  | nil =>
    intro pre rest hp
    have := congrArg List.length hp
    simp only [List.length_nil, List.length_append, List.length_cons] at this
    omega
  | cons c s ih =>
    simp only [openersClosed, Bool.and_eq_true, Bool.or_eq_true, Bool.not_eq_true'] at h
    intro pre rest hp
    cases pre with
    | nil =>
      simp only [List.nil_append, List.cons.injEq] at hp
      obtain ⟨rfl, rfl⟩ := hp
      rcases h.1 with h1 | h1
      · have : startsWith ('%' :: '{' :: rest) ['%', '{'] = true :=
          (startsWith_iff _ _).2 ⟨rest, rfl⟩
        rw [this] at h1
        cases h1
      · obtain ⟨r, hr⟩ := (startsWith_iff _ _).1 h1
        simp only [List.cons_append, List.nil_append, List.cons.injEq, true_and] at hr
        exact ⟨r, hr⟩
    | cons p pre =>
      simp only [List.cons_append, List.cons.injEq] at hp
      exact ih h.2 pre rest hp.2

/-- The pattern does not match where `%{` is followed by `}` at once: the name
would be empty. -/
theorem matchHere_empty_name (r : Str) : matchHere ('%' :: '{' :: '}' :: r) = none := by
  simp [matchHere, List.takeWhile]

/-- A match starts with `%{`. -/
theorem matchHere_some_starts {s : Str} {d : Declaration} (h : matchHere s = some d) :
    ∃ rest, s = '%' :: '{' :: rest := by
  obtain ⟨_, _, _, rest, hs⟩ := (matchHere_eq_some_iff s d).1 h
  exact ⟨d.name ++ d.defaultGroup ++ ['}'] ++ rest, by simp [hs, Declaration.text]⟩

/-- Claim C21.  In a template in which every occurrence of `%{` is followed by
`}` at once, as in `this text %{}`, the grammar finds no declaration, since
the name of a declaration is never empty; for every property source
`Interpolate` returns the template unchanged and no error, and leaves the
world state as it was. -/
theorem Interpolate_openers_closed {σ : Type} (Quote : Str → Str) (text : Str)
    (hclosed : ∀ pre rest, text = pre ++ '%' :: '{' :: rest → ∃ r, rest = '}' :: r)
    (props : TranslationProperties σ) (s : σ) :
    declarations text = [] ∧
    interpolator.Interpolate Quote text props s = ((text, none), s) := by
  have hnil : declarations text = [] := by
    rw [declarations_eq_nil_iff]
    intro pre rest hp
    cases hm : matchHere rest with
    | none => rfl
    | some d =>
      exfalso
      obtain ⟨rest1, hr⟩ := matchHere_some_starts hm
      obtain ⟨r, hr1⟩ := hclosed pre rest1 (by rw [hp, hr])
      rw [hr, hr1, matchHere_empty_name] at hm
      cases hm
  exact ⟨hnil, by
    simp [interpolator.Interpolate, findInterpolations_eq_map, hnil, interpolateLoop]⟩

theorem Interpolate_openers_closed_witness :
    (∀ pre rest, "this text %\x7b\x7d".toList = pre ++ '%' :: '{' :: rest →
      ∃ r, rest = '}' :: r) ∧
    declarations "this text %\x7b\x7d".toList = [] ∧
    interpolator.Interpolate quotePlain "this text %\x7b\x7d".toList
        (NewTranslationProperties profile) () =
      (("this text %\x7b\x7d".toList, none), ()) :=
  ⟨openersClosed_sound _ (by decide),
    Interpolate_openers_closed quotePlain "this text %\x7b\x7d".toList
      (openersClosed_sound _ (by decide)) (NewTranslationProperties profile) ()⟩

/-- Claim C24.  The order of wrapping is observable.  With a base translator
that always fails, the fallback `%{x}`, the vanilla interpolator and a source
without `x`, interpolating the defaulted translator fails (the fallback is
interpolated and `x` is absent), while defaulting the interpolated translator
returns the fallback `%{x}` and no error. -/
theorem wrapping_order_observable :
    ∃ (base : Translator Unit) (d : Str) (interp : Interpolator Unit) (key : Str)
      (props : TranslationProperties Unit),
      NewInterpolatedTranslator quotePlain (NewDefaultTranslator d base) interp key props () ≠
        NewDefaultTranslator d (NewInterpolatedTranslator quotePlain base interp) key props () ∧
      (NewInterpolatedTranslator quotePlain (NewDefaultTranslator d base) interp
        key props ()).1.2 ≠ none ∧
      NewDefaultTranslator d (NewInterpolatedTranslator quotePlain base interp) key props () =
        ((d, none), ()) :=
  ⟨failingTranslator, "%\x7bx\x7d".toList, NewInterpolator quotePlain, "my.key".toList,
    NewTranslationProperties [], by decide, by decide, by decide⟩

/-- Claim C27.  A declaration with an empty default, `%{n|}`, counts as having
a default.  Let the template be `pre ++ %{n|} ++ post` and let that be the
only declaration the scan finds; when the source does not find `n`,
`Interpolate` returns `pre ++ post` and no error. -/
theorem Interpolate_empty_default {σ : Type} (Quote : Str → Str) (text pre post n : Str)
    (hone : declarations text = [⟨n, some []⟩])
    (hform : text = pre ++ ('%' :: '{' :: (n ++ ['|', '}'])) ++ post)
    (props : TranslationProperties σ) (s s1 : σ) (x : Str) (e : GoError)
    (habsent : props n s = ((x, some e), s1)) :
    interpolator.findInterpolations text =
      [{ literal := '%' :: '{' :: (n ++ ['|', '}']), property := n,
         hasDefaultValue := true, defaultValue := [] }] ∧
    interpolator.Interpolate Quote text props s = ((pre ++ post, none), s1) := by
  have htext : (⟨n, some []⟩ : Declaration).text = '%' :: '{' :: (n ++ ['|', '}']) := by
    simp [Declaration.text, Declaration.defaultGroup]
  have hrep := Replace_single_declaration text pre post ⟨n, some []⟩ hone
    (by rw [htext]; exact hform) []
  constructor
  · simp [findInterpolations_eq_map, hone, htext]
  · simp only [interpolator.Interpolate, findInterpolations_eq_map, hone, List.map_cons,
      List.map_nil, interpolateLoop, habsent, Option.isSome_some, Bool.not_true,
      Bool.false_eq_true, if_false, Option.getD_some]
    rw [hrep]
    simp

theorem Interpolate_empty_default_witness :
    declarations "hello %\x7bname|\x7d!".toList = [⟨"name".toList, some []⟩] ∧
    interpolator.findInterpolations "hello %\x7bname|\x7d!".toList =
      [{ literal := '%' :: '{' :: ("name".toList ++ ['|', '}']), property := "name".toList,
         hasDefaultValue := true, defaultValue := [] }] ∧
    interpolator.Interpolate quotePlain "hello %\x7bname|\x7d!".toList
        (NewTranslationProperties []) () = (("hello ".toList ++ "!".toList, none), ()) :=
  ⟨by decide,
    Interpolate_empty_default quotePlain "hello %\x7bname|\x7d!".toList "hello ".toList
      "!".toList "name".toList (by decide) (by decide) (NewTranslationProperties []) () ()
      [] (Errorf "property not available") (by decide)⟩

/-! ## Theorems: the tree of a parsed document is normalized -/

mutual
/-- The value built for a parsed value is a string or a normalized mapping. -/
theorem yamlTranslationizeValue_normalized :
    ∀ v : RawValue, (yamlTranslationizeValue v).normalized = true
  | .scalar _ => by simp [yamlTranslationizeValue, YamlValue.normalized]
  | .slice l => by
    simp only [yamlTranslationizeValue, YamlValue.normalized]
    exact yamlTranslationizeSliceFrom_normalized l [] 0 rfl
  | .map m => by
    simp only [yamlTranslationizeValue, YamlValue.normalized]
    exact yamlTranslationizeMapFrom_normalized m [] rfl
/-- The loop over the entries of a mapping keeps the map normalized. -/
theorem yamlTranslationizeMapFrom_normalized :
    ∀ (ts : List (Scalar × RawValue)) (yts : yamlTranslations),
      normalizedEntries yts = true →
      normalizedEntries (yamlTranslationizeMapFrom yts ts) = true
  | [], yts, h => by simpa [yamlTranslationizeMapFrom] using h
  | (k, v) :: rest, yts, h => by
    simp only [yamlTranslationizeMapFrom]
    exact yamlTranslationizeMapFrom_normalized rest _
      (by simp [normalizedEntries, yamlTranslationizeValue_normalized v, h])
/-- The loop over the elements of a sequence keeps the map normalized. -/
theorem yamlTranslationizeSliceFrom_normalized :
    ∀ (l : List RawValue) (yts : yamlTranslations) (k : Nat),
      normalizedEntries yts = true →
      normalizedEntries (yamlTranslationizeSliceFrom yts k l) = true
  | [], yts, _, h => by simpa [yamlTranslationizeSliceFrom] using h
  | v :: rest, yts, k, h => by
    simp only [yamlTranslationizeSliceFrom]
    exact yamlTranslationizeSliceFrom_normalized rest _ (k + 1)
      (by simp [normalizedEntries, yamlTranslationizeValue_normalized v, h])
end

/-- The key path is never empty. -/
theorem keyPath_ne_nil (key separator : Str) : keyPath key separator ≠ [] := by
  by_cases h : separator = []
  · simp [keyPath, h]
  · simp only [keyPath, Split, h, if_false]
    exact splitGo_ne_nil separator key 0 []

/-- Claim C25.  For every parsed document `ts` the tree that
`yamlTranslationizeMap` builds is normalized: every value stored in it, at
every depth, is a string or a mapping.  Hence, on the translator that
`NewYAMLTranslatorWithSeparator` constructs from `ts`, `find` returns for
every path, without reaching its panic, and `Translate` returns a string and
an error value for every key. -/
theorem yamlTranslationizeMap_normalized_never_panics {σ : Type} (Quote : Str → Str)
    (ts : List (Scalar × RawValue)) (separator : Str) :
    normalizedEntries (yamlTranslationizeMap ts) = true ∧
    (∀ (Unmarshal : Str → Except GoError (List (Scalar × RawValue))) (yml : Str),
      Unmarshal yml = .ok ts →
      NewYAMLTranslatorWithSeparator Unmarshal yml separator =
        .ok ⟨separator, yamlTranslationizeMap ts⟩) ∧
    (∀ path : List Str, ∃ r : Result,
      yamlTranslations.find (yamlTranslationizeMap ts) path = .ret r) ∧
    (∀ (key : Str) (props : TranslationProperties σ) (s : σ), ∃ r : Result,
      (yamlTranslator.mk separator (yamlTranslationizeMap ts)).Translate Quote key props s =
        .ret (r, s)) := by
  have hn : normalizedEntries (yamlTranslationizeMap ts) = true :=
    yamlTranslationizeMapFrom_normalized ts [] rfl
  refine ⟨hn, ?_, ?_, ?_⟩
  · intro Unmarshal yml h
    simp [NewYAMLTranslatorWithSeparator, h]
  · intro path
    obtain ⟨r, hr, _⟩ := find_normalized path _ hn
    exact ⟨r, hr⟩
  · intro key props s
    obtain ⟨r, hr, _⟩ := find_normalized (keyPath key separator) _ hn
    rw [yamlTranslator_Translate_eq]
    simp only [hr]
    obtain ⟨tr, _ | e⟩ := r
    · exact ⟨_, rfl⟩
    · exact ⟨_, rfl⟩

theorem yamlTranslationizeMap_normalized_never_panics_witness :
    normalizedEntries (yamlTranslationizeMap exampleDocument) = true ∧
    NewYAMLTranslatorWithSeparator exampleUnmarshal [] ".".toList =
      .ok ⟨".".toList, yamlTranslationizeMap exampleDocument⟩ ∧
    ∃ r : Result,
      (yamlTranslator.mk ".".toList (yamlTranslationizeMap exampleDocument)).Translate
        quotePlain "numbers".toList recordingProperties [] = .ret (r, []) :=
  ⟨(@yamlTranslationizeMap_normalized_never_panics (List Str) quotePlain exampleDocument
      ".".toList).1,
    (@yamlTranslationizeMap_normalized_never_panics (List Str) quotePlain exampleDocument
      ".".toList).2.1 exampleUnmarshal [] rfl,
    (yamlTranslationizeMap_normalized_never_panics quotePlain exampleDocument
      ".".toList).2.2.2 "numbers".toList recordingProperties []⟩

/-! ## Theorems: the error messages -/

/-- On a normalized mapping and a path that is not empty, `find` returns the
leaf that the walk reaches, or `not found` when a segment is missing or the
path continues past a leaf, or `incomplete path` when the walk ends on a
branch. -/
theorem find_normalized_cases (path : List Str) :
    ∀ m : yamlTranslations, normalizedEntries m = true → path ≠ [] →
      (∃ v, Reaches m path v ∧ yamlTranslations.find m path = .ret (v, none)) ∨
      ((MissingSegment m path ∨ ContinuesPastLeaf m path) ∧
        yamlTranslations.find m path = .ret ([], some (Errorf "not found"))) ∨
      (EndsOnBranch m path ∧
        yamlTranslations.find m path = .ret ([], some (Errorf "incomplete path"))) := by
  induction path with
  | nil => intro m _ h; exact absurd rfl h
  | cons k rest ih =>
    intro m hm _
    cases hk : m.lookup k with
    | none =>
      exact Or.inr (Or.inl ⟨Or.inl (.here hk), by simp [yamlTranslations.find, hk]⟩)
    | some val =>
      cases val with
      | other ty =>
        have := normalized_lookup hm hk
        simp [YamlValue.normalized] at this
      | str v =>
        cases rest with
        | nil => exact Or.inl ⟨v, .leaf hk, by simp [yamlTranslations.find, hk]⟩
        | cons k2 rest2 =>
          exact Or.inr (Or.inl ⟨Or.inr ⟨[k], k2 :: rest2, v, rfl, by simp, .leaf hk⟩,
            by simp [yamlTranslations.find, hk]⟩)
      | translations m1 =>
        have hm1 : normalizedEntries m1 = true := by
          have := normalized_lookup hm hk
          simpa [YamlValue.normalized] using this
        cases rest with
        | nil =>
          exact Or.inr (Or.inr ⟨.last hk, by simp [yamlTranslations.find, hk]⟩)
        | cons k2 rest2 =>
          have hf : yamlTranslations.find m (k :: k2 :: rest2) =
              yamlTranslations.find m1 (k2 :: rest2) := by
            simp [yamlTranslations.find, hk]
          rw [hf]
          rcases ih m1 hm1 (by simp) with ⟨v, hv, hr⟩ | ⟨hreason, hr⟩ | ⟨hb, hr⟩
          · exact Or.inl ⟨v, .step hk hv, hr⟩
          · refine Or.inr (Or.inl ⟨?_, hr⟩)
            rcases hreason with hmiss | ⟨p1, p2, v, hp, hp2, hv⟩
            · exact Or.inl (.step hk hmiss)
            · exact Or.inr ⟨k :: p1, p2, v, by simp [hp], hp2, .step hk hv⟩
          · exact Or.inr (Or.inr ⟨.step hk hb, hr⟩)

/-- Claim C22, refuted at the key `greetings` of the example document, which
ends on a branch: `Translate` returns the empty string and the error
`translating "greetings": incomplete path`, which is not
`translating "greetings": not found`. -/
theorem yamlTranslator_Translate_branch_message :
    exampleTranslator.Translate quotePlain "greetings".toList recordingProperties [] =
      .ret (([], some ⟨"translating ".toList ++ quotePlain "greetings".toList ++
        ": incomplete path".toList⟩), []) ∧
    (⟨"translating ".toList ++ quotePlain "greetings".toList ++
        ": incomplete path".toList⟩ : GoError) ≠
      ⟨"translating ".toList ++ quotePlain "greetings".toList ++ ": not found".toList⟩ := by
  decide

/-- Claim C22, amended.  On a normalized tree `Translate` returns, and
whenever it returns an error the string it returns is empty and the failure
has one of three reasons: a segment is missing or the path continues past a
leaf, and the message is `translating <quoted key>: not found`; or the path
ends on a branch, and the message is
`translating <quoted key>: incomplete path`.  The key quoted is the whole,
unsplit key. -/
theorem yamlTranslator_Translate_failure_message {σ : Type} (Quote : Str → Str)
    (t : yamlTranslator) (hnorm : normalizedEntries t.translations = true) (key : Str)
    (props : TranslationProperties σ) (s : σ) :
    ∃ r : Result, t.Translate Quote key props s = .ret (r, s) ∧
      (r.2 ≠ none → r.1 = [] ∧
        (((MissingSegment t.translations (keyPath key t.separator) ∨
            ContinuesPastLeaf t.translations (keyPath key t.separator)) ∧
          r.2 = some ⟨"translating ".toList ++ Quote key ++ ": not found".toList⟩) ∨
         (EndsOnBranch t.translations (keyPath key t.separator) ∧
          r.2 = some ⟨"translating ".toList ++ Quote key ++
            ": incomplete path".toList⟩))) := by
  rw [yamlTranslator_Translate_eq]
  rcases find_normalized_cases (keyPath key t.separator) t.translations hnorm
      (keyPath_ne_nil key t.separator) with ⟨v, _, hr⟩ | ⟨hreason, hr⟩ | ⟨hb, hr⟩
  · exact ⟨(v, none), by simp [hr], by simp⟩
  · refine ⟨([], some (Errorf2 "translating " (Quote key) (Errorf "not found"))),
      by simp [hr], fun _ => ⟨rfl, Or.inl ⟨hreason, ?_⟩⟩⟩
    simp [Errorf2, Errorf]
  · refine ⟨([], some (Errorf2 "translating " (Quote key) (Errorf "incomplete path"))),
      by simp [hr], fun _ => ⟨rfl, Or.inr ⟨hb, ?_⟩⟩⟩
    simp [Errorf2, Errorf]

theorem yamlTranslator_Translate_failure_message_witness :
    normalizedEntries exampleTranslator.translations = true ∧
    ∃ r : Result,
      exampleTranslator.Translate quotePlain "hello.x".toList recordingProperties [] =
        .ret (r, []) ∧
      (r.2 ≠ none → r.1 = [] ∧
        (((MissingSegment exampleTranslator.translations
              (keyPath "hello.x".toList exampleTranslator.separator) ∨
            ContinuesPastLeaf exampleTranslator.translations
              (keyPath "hello.x".toList exampleTranslator.separator)) ∧
          r.2 = some ⟨"translating ".toList ++ quotePlain "hello.x".toList ++
            ": not found".toList⟩) ∨
         (EndsOnBranch exampleTranslator.translations
            (keyPath "hello.x".toList exampleTranslator.separator) ∧
          r.2 = some ⟨"translating ".toList ++ quotePlain "hello.x".toList ++
            ": incomplete path".toList⟩))) :=
  ⟨by decide,
    yamlTranslator_Translate_failure_message quotePlain exampleTranslator (by decide)
      "hello.x".toList recordingProperties []⟩

/-- When the loop fails on a map-backed source it returns the empty string and
the message `interpolating <quoted text>: property not available`; the text
quoted is the current text when the first interpolation is the one that
fails. -/
theorem interpolateLoop_failure_message {σ : Type} (Quote : Str → Str)
    (ps : List (Str × Str)) (l : List interpolation) :
    ∀ (text : Str) (s : σ),
      (interpolateLoop Quote (NewTranslationProperties ps) l text s).1.2 ≠ none →
      (interpolateLoop Quote (NewTranslationProperties ps) l text s).1.1 = [] ∧
      ∃ quoted : Str,
        (interpolateLoop Quote (NewTranslationProperties ps) l text s).1.2 =
          some ⟨"interpolating ".toList ++ Quote quoted ++
            ": property not available".toList⟩ ∧
        (∀ i rest, l = i :: rest → ps.lookup i.property = none →
          i.hasDefaultValue = false → quoted = text) := by
  induction l with
  | nil => intro text s h; simp [interpolateLoop] at h
  | cons i rest ih =>
    intro text s h
    cases hk : ps.lookup i.property with
    | some v =>
      have hp : (NewTranslationProperties ps : TranslationProperties σ) i.property s =
          ((v, none), s) := by simp [NewTranslationProperties, hk]
      simp only [interpolateLoop, hp] at h ⊢
      obtain ⟨h1, q, hq, _⟩ := ih _ s h
      refine ⟨h1, q, hq, ?_⟩
      intro j r hj hnone _
      obtain ⟨rfl, _⟩ := List.cons.inj hj
      rw [hk] at hnone
      cases hnone
    | none =>
      have hp : (NewTranslationProperties ps : TranslationProperties σ) i.property s =
          (([], some (Errorf "property not available")), s) := by
        simp [NewTranslationProperties, hk]
      cases hd : i.hasDefaultValue with
      | false =>
        have hv : interpolateLoop Quote (NewTranslationProperties ps) (i :: rest) text s =
            (([], some (Errorf2 "interpolating " (Quote text)
              (Errorf "property not available"))), s) := by
          simp [interpolateLoop, hp, hd]
        rw [hv]
        exact ⟨rfl, text, by simp [Errorf2, Errorf], fun _ _ _ _ _ => rfl⟩
      | true =>
        simp only [interpolateLoop, hp, hd, Bool.not_true, Bool.false_eq_true, if_false]
          at h ⊢
        obtain ⟨h1, q, hq, _⟩ := ih _ s h
        refine ⟨h1, q, hq, ?_⟩
        intro j r hj _ hfalse
        obtain ⟨rfl, _⟩ := List.cons.inj hj
        rw [hd] at hfalse
        cases hfalse

set_option maxRecDepth 20000 in
/-- Claim C23, refuted on two counts.  In `my name is %{name}, %{lastname}`
the declaration that fails is the second one, and the message quotes the text
after the first substitution, `my name is Alan Ginsberg, %{lastname}`: the
quoted template as it was passed in does not occur in the message.  And the
message does not tell which property is missing: on `%{a} %{b}` a source
without `a` and a source that holds `a` (with a value that leaves the text as
it is) and lacks `b` give the very same result. -/
theorem Interpolate_failure_message_counterexample :
    (interpolator.Interpolate quotePlain
        "my name is %\x7bname\x7d, %\x7blastname\x7d".toList
        (NewTranslationProperties profile) ()).1 =
      ([], some ⟨"interpolating ".toList ++
        quotePlain "my name is Alan Ginsberg, %\x7blastname\x7d".toList ++
        ": property not available".toList⟩) ∧
    ¬ List.IsInfix (quotePlain "my name is %\x7bname\x7d, %\x7blastname\x7d".toList)
        ("interpolating ".toList ++
          quotePlain "my name is Alan Ginsberg, %\x7blastname\x7d".toList ++
          ": property not available".toList) ∧
    List.lookup "a".toList ([] : List (Str × Str)) = none ∧
    List.lookup "a".toList [("a".toList, "%\x7ba\x7d".toList)] = some "%\x7ba\x7d".toList ∧
    List.lookup "b".toList [("a".toList, "%\x7ba\x7d".toList)] = none ∧
    (interpolator.Interpolate quotePlain "%\x7ba\x7d %\x7bb\x7d".toList
        (NewTranslationProperties []) ()).1 =
      (interpolator.Interpolate quotePlain "%\x7ba\x7d %\x7bb\x7d".toList
        (NewTranslationProperties [("a".toList, "%\x7ba\x7d".toList)]) ()).1 := by
  refine ⟨by decide, by decide, by decide, by decide, by decide, by decide⟩

/-- Claim C23, amended.  Whenever `Interpolate` fails on a template with a
map-backed property source, it returns the empty string and an error whose
message is `interpolating `, a quoted text and `: property not available`;
the property is not named apart from the quoted text.  When the first
declaration of the template is the one that fails (its name is absent and it
has no default), the quoted text is the template as it was passed in. -/
theorem Interpolate_failure_message {σ : Type} (Quote : Str → Str) (text : Str)
    (ps : List (Str × Str)) (s : σ)
    (hfail : (interpolator.Interpolate Quote text (NewTranslationProperties ps) s).1.2 ≠ none) :
    (interpolator.Interpolate Quote text (NewTranslationProperties ps) s).1.1 = [] ∧
    ∃ quoted : Str,
      (interpolator.Interpolate Quote text (NewTranslationProperties ps) s).1.2 =
        some ⟨"interpolating ".toList ++ Quote quoted ++ ": property not available".toList⟩ ∧
      (∀ d rest, declarations text = d :: rest → ps.lookup d.name = none → d.dflt = none →
        quoted = text) := by
  unfold interpolator.Interpolate at hfail ⊢
  obtain ⟨h1, q, hq, hfirst⟩ := interpolateLoop_failure_message Quote ps _ text s hfail
  refine ⟨h1, q, hq, ?_⟩
  intro d rest hds hnone hdflt
  refine hfirst ⟨d.text, d.name, d.dflt.isSome, d.dflt.getD []⟩
    (rest.map (fun d => ⟨d.text, d.name, d.dflt.isSome, d.dflt.getD []⟩)) ?_ hnone ?_
  · rw [findInterpolations_eq_map, hds, List.map_cons]
  · simp [hdflt]

theorem Interpolate_failure_message_witness :
    (interpolator.Interpolate quotePlain "my name is %\x7bfirstname\x7d".toList
        (NewTranslationProperties profile) ()).1.2 ≠ none ∧
    (interpolator.Interpolate quotePlain "my name is %\x7bfirstname\x7d".toList
        (NewTranslationProperties profile) ()).1.1 = [] ∧
    ∃ quoted : Str,
      (interpolator.Interpolate quotePlain "my name is %\x7bfirstname\x7d".toList
          (NewTranslationProperties profile) ()).1.2 =
        some ⟨"interpolating ".toList ++ quotePlain quoted ++
          ": property not available".toList⟩ ∧
      (∀ d rest, declarations "my name is %\x7bfirstname\x7d".toList = d :: rest →
        profile.lookup d.name = none → d.dflt = none →
        quoted = "my name is %\x7bfirstname\x7d".toList) :=
  ⟨by decide,
    Interpolate_failure_message quotePlain "my name is %\x7bfirstname\x7d".toList profile ()
      (by decide)⟩

/-! ## Theorems: the records of `findInterpolations` -/

/-- The scanner's anchored match is the match of the grammar. -/
theorem matchesAt_iff (s : Str) (d : Declaration) :
    MatchesAt s d ↔ matchHere s = some d := by
  rw [matchHere_eq_some_iff]
  simp only [MatchesAt, Declaration.wellFormed, and_assoc]

/-- A position where the pattern does not match can be put in front of a
scanned text. -/
theorem Scanned.cons_no_match {c : Char} {s : Str} {ds : List Declaration}
    (hm : matchHere (c :: s) = none) (hs : Scanned s ds) : Scanned (c :: s) ds := by
  have hno : ∀ d, ¬ MatchesAt (c :: s) d := by
    intro d hd
    rw [matchesAt_iff, hm] at hd
    cases hd
  cases hs with
  | done h =>
    refine .done ?_
    intro pre rest d hp
    cases pre with
    | nil => simp only [List.nil_append] at hp; rw [← hp]; exact hno d
    | cons p pre =>
      simp only [List.cons_append, List.cons.injEq] at hp
      exact h pre rest d hp.2
  | @next g rest d ds hmatch hg hrest =>
    have : Scanned ((c :: g) ++ d.text ++ rest) (d :: ds) := by
      refine .next hmatch ?_ hrest
      intro pre suf d1 hp hsuf
      cases pre with
      | nil =>
        simp only [List.nil_append] at hp
        rw [← hp]
        exact hno d1
      | cons p pre =>
        simp only [List.cons_append, List.cons.injEq] at hp
        exact hg pre suf d1 hp.2 hsuf
    simpa using this

/-- What the scanner finds are the successive non-overlapping matches of the
grammar, left to right. -/
theorem declarations_scanned (text : Str) : Scanned text (declarations text) := by
  have key : ∀ (n : Nat) (text : Str), text.length ≤ n → Scanned text (declarations text) := by
    intro n
    induction n with
    | zero =>
      intro text h
      have : text = [] := List.length_eq_zero.1 (Nat.le_zero.1 h)
      subst this
      exact .done (fun pre rest d hp hd => by
        have hr : rest = [] := (List.append_eq_nil.1 hp.symm).2
        rw [hr, matchesAt_iff] at hd
        cases hd)
    | succ n ih =>
      intro text h
      cases text with
      | nil =>
        exact .done (fun pre rest d hp hd => by
          have hr : rest = [] := (List.append_eq_nil.1 hp.symm).2
          rw [hr, matchesAt_iff] at hd
          cases hd)
      | cons c s =>
        cases hm : matchHere (c :: s) with
        | none =>
          rw [declarations_no_match c s hm]
          exact Scanned.cons_no_match hm (ih s (by simpa using h))
        | some d =>
          obtain ⟨rest, hs, hd⟩ := declarations_match (c :: s) d hm
          rw [hd, hs]
          have hlen : rest.length ≤ n := by
            have := congrArg List.length hs
            simp only [List.length_cons, List.length_append, Declaration.text] at this h
            omega
          have hnext : Scanned ([] ++ d.text ++ rest) (d :: declarations rest) := by
            refine .next ((matchesAt_iff _ _).2 (by rw [← hs]; exact hm)) ?_ (ih rest hlen)
            intro pre suf d1 hp hsuf
            exact absurd (List.append_eq_nil.1 hp.symm).2 hsuf
          simpa using hnext
  exact key text.length text (Nat.le_refl _)

/-- Every declaration of a scanned text is one that the grammar admits. -/
theorem Scanned.wellFormed {text : Str} {ds : List Declaration} (h : Scanned text ds) :
    ∀ d ∈ ds, d.wellFormed := by
  induction h with
  | done _ => intro d hd; cases hd
  | next hmatch _ _ ih =>
    intro d1 hd1
    rcases List.mem_cons.1 hd1 with rfl | hd1
    · exact hmatch.1
    · exact ih d1 hd1

/-- Claim C26.  Every record that `findInterpolations` produces has a name
that is not empty and holds neither `}` nor `|`, a default text that holds no
`}`, and a literal equal to `%{`, the name, `|` and the default exactly when
`hasDefaultValue` is set, and `}`.  The records are those of the successive
non-overlapping matches of the grammar in the template, left to right, and
their literals are the texts of these matches. -/
theorem findInterpolations_records (text : Str) :
    (∀ r ∈ interpolator.findInterpolations text,
      r.property ≠ [] ∧ (∀ c ∈ r.property, c ≠ '}' ∧ c ≠ '|') ∧
      (∀ c ∈ r.defaultValue, c ≠ '}') ∧
      r.literal = '%' :: '{' ::
        (r.property ++ (if r.hasDefaultValue then '|' :: r.defaultValue else []) ++ ['}'])) ∧
    ∃ ds : List Declaration, Scanned text ds ∧
      interpolator.findInterpolations text = ds.map Declaration.record ∧
      (interpolator.findInterpolations text).map (fun r => r.literal) =
        ds.map Declaration.text := by
  have hs := declarations_scanned text
  have hmap : interpolator.findInterpolations text =
      (declarations text).map Declaration.record := by
    rw [findInterpolations_eq_map]; rfl
  refine ⟨?_, declarations text, hs, hmap, ?_⟩
  · intro r hr
    rw [hmap] at hr
    obtain ⟨d, hd, rfl⟩ := List.mem_map.1 hr
    obtain ⟨h1, h2, h3⟩ := hs.wellFormed d hd
    refine ⟨h1, h2, ?_, ?_⟩
    · intro c hc
      rcases hv : d.dflt with _ | v
      · simp [Declaration.record, hv] at hc
      · simp only [Declaration.record, hv, Option.getD_some] at hc
        exact h3 v hv c hc
    · rcases hv : d.dflt with _ | v <;>
        simp [Declaration.record, Declaration.text, Declaration.defaultGroup, hv]
  · rw [hmap, List.map_map]
    rfl

theorem findInterpolations_records_witness :
    interpolator.findInterpolations
        "%\x7b\x7d %\x7blastname|Ginsberg\x7d, %\x7bname\x7d %\x7bx|".toList =
      [{ literal := "%\x7blastname|Ginsberg\x7d".toList, property := "lastname".toList,
         hasDefaultValue := true, defaultValue := "Ginsberg".toList },
       { literal := "%\x7bname\x7d".toList, property := "name".toList,
         hasDefaultValue := false, defaultValue := [] }] ∧
    ∃ ds : List Declaration,
      Scanned "%\x7b\x7d %\x7blastname|Ginsberg\x7d, %\x7bname\x7d %\x7bx|".toList ds ∧
      interpolator.findInterpolations
          "%\x7b\x7d %\x7blastname|Ginsberg\x7d, %\x7bname\x7d %\x7bx|".toList =
        ds.map Declaration.record ∧
      (interpolator.findInterpolations
          "%\x7b\x7d %\x7blastname|Ginsberg\x7d, %\x7bname\x7d %\x7bx|".toList).map
          (fun r => r.literal) = ds.map Declaration.text :=
  ⟨by decide,
    (findInterpolations_records
      "%\x7b\x7d %\x7blastname|Ginsberg\x7d, %\x7bname\x7d %\x7bx|".toList).2⟩

end Katolomb
